import Mathlib

/-!
Verification of the compression core of `Algorithm_In_Python`
(`src/compression/`): the LZW-style bit coder and file framer
(`lempel_ziv.py`), the Burrows-Wheeler transform (`burrows_wheeler.py`)
and the Huffman coder (`huffman.py`).

Bit strings (Python strings over the characters `'0'`/`'1'`) are modelled
as `List Bool`, with `false` standing for `'0'` and `true` for `'1'`.

Functions that Python writes with unbounded loops or division-based
recursion are defined structurally over an explicit recursion budget
(always instantiated with a provably sufficient bound) so that every
definition reduces inside the kernel; fuel-invariance lemmas recover the
natural defining equations.
-/

namespace AlgoPy

/-! ## Shared bit utilities (`lempel_ziv.py`) -/

/-- Recursion on `n / 2`, structurally on the budget `fuel`; the budget is
sufficient whenever `n ≤ fuel`. -/
def natBitsGo : Nat → Nat → List Bool
  | _, 0 => [false]
  | _, 1 => [true]
  | 0, _ + 2 => []
  | fuel + 1, n + 2 => natBitsGo fuel ((n + 2) / 2) ++ [decide ((n + 2) % 2 = 1)]

/-- `bin(n)[2:]` in Python: the binary digits of `n`, most significant
first, with no leading zeros; `bin(0)[2:] = "0"` becomes `[false]`. -/
def natBits (n : Nat) : List Bool := natBitsGo n n

/-- Recursion on `n / 2`, structurally on the budget `fuel`. -/
def isPow2Go : Nat → Nat → Bool
  | _, 0 => false
  | _, 1 => true
  | 0, _ + 2 => false
  | fuel + 1, n + 2 => decide ((n + 2) % 2 = 0) && isPow2Go fuel ((n + 2) / 2)

/-- `math.log2(n).is_integer()` from `lempel_ziv.py`, modelled exactly:
`n` is a power of two.  (The Python test goes through floating point; for
the integer sizes a lexicon index reaches here it agrees with the exact
power-of-two test modelled here.) -/
def isPow2 (n : Nat) : Bool := isPow2Go n n

/-- `int(elem, 2)` in Python: read a bit string as a base-2 number. -/
def bitsToNat (l : List Bool) : Nat :=
  l.foldl (fun n b => 2 * n + (if b then 1 else 0)) 0

/-- `f"{dat:08b}"` in Python for a byte `dat < 256`: its eight bits, most
significant first. -/
def natToBits8 (n : Nat) : List Bool :=
  [n.testBit 7, n.testBit 6, n.testBit 5, n.testBit 4,
   n.testBit 3, n.testBit 2, n.testBit 1, n.testBit 0]

/-! ## File framer (`lempel_ziv.py`) -/

/-- Chunking loop of `write_file_binary`, structurally on a budget;
the budget is sufficient whenever `l.length ≤ fuel`. -/
def toChunks8Go : Nat → List Bool → List (List Bool)
  | _, [] => []
  | 0, _ :: _ => []
  | fuel + 1, a :: l => ((a :: l).take 8) :: toChunks8Go fuel ((a :: l).drop 8)

/-- `[to_write[i : i + 8] for i in range(0, len(to_write), 8)]`:
split a bit string into chunks of eight, the last possibly shorter. -/
def toChunks8 (l : List Bool) : List (List Bool) := toChunks8Go l.length l

/-- The full padding byte `"10000000"` of `write_file_binary`. -/
def sentinelByte : List Bool :=
  [true, false, false, false, false, false, false, false]

/-- `write_file_binary` from `lempel_ziv.py`, modelled as the list of bytes
written (actual file output is out of scope).  Python evaluates
`result_byte_array[-1]`, which raises `IndexError` on an empty array, so an
empty input yields `none`. -/
def write_file_binary (to_write : List Bool) : Option (List Nat) :=
  match (toChunks8 to_write).getLast? with
  | none => none
  | some last =>
      let arr :=
        if last.length % 8 = 0 then
          toChunks8 to_write ++ [sentinelByte]
        else
          (toChunks8 to_write).dropLast ++
            [last ++ true :: List.replicate (8 - last.length - 1) false]
      some (arr.map bitsToNat)

/-- `read_file_binary` from `lempel_ziv.py`, modelled on the list of bytes
read: each byte contributes its eight bits, most significant first. -/
def read_file_binary (data : List Nat) : List Bool :=
  data.flatMap natToBits8

/-- `add_file_length` from `lempel_ziv.py`.  Python computes
`file_length = os.path.getsize(source_path)`; that byte count enters here
as the parameter `file_length`. -/
def add_file_length (file_length : Nat) (compressed : List Bool) : List Bool :=
  let file_length_binary := natBits file_length
  List.replicate (file_length_binary.length - 1) false ++
    file_length_binary ++ compressed

/-- `remove_prefix` from `lempel_ziv.py` (name primed for Lean's lexer):
count the leading bits up to the first `'1'`, then drop `counter` bits and
another `counter + 1` bits.  The Python function raises no exception. -/
def remove_prefix' (data_bits : List Bool) : List Bool :=
  let counter := (data_bits.takeWhile (fun b => !b)).length
  (data_bits.drop counter).drop (counter + 1)

/-! ## Burrows-Wheeler transform (`burrows_wheeler.py`) -/

/-- Python's `list.index(x)`: the index of the first occurrence of `x`
(only ever consulted when `x` is present, where `list.index` cannot
raise). -/
def listIndex (x : List Char) : List (List Char) → Nat
  | [] => 0
  | y :: t => if y = x then 0 else listIndex x t + 1

/-- Python's `list.sort()` on a list of strings: sort lexicographically
(by code point, as Lean's `Char` order).  Ties in a sort of strings are
equal strings, so stability does not affect the resulting list. -/
def pySort (l : List (List Char)) : List (List Char) :=
  List.insertionSort (· ≤ ·) l

/-- `all_rotations`: `[s[i:] + s[:i] for i in range(len(s))]`. -/
def all_rotations (s : List Char) : List (List Char) :=
  (List.range s.length).map (fun i => s.drop i ++ s.take i)

/-- `word[-1]` on a nonempty string (the default is never reached). -/
def lastChar (w : List Char) : Char := w.getLastD 'a'

/-- The record the Python code calls `BWTTransformDict`. -/
structure BWTTransformDict where
  bwt_string : List Char
  idx_original_string : Nat

/-- `bwt_transform`: the `raise ValueError` on an empty string becomes
`Except.error`; the `TypeError` branch for non-string arguments is outside
a typed embedding.  `rotations.index(s)` is the index of the first
occurrence of `s` in the sorted rotation list. -/
def bwt_transform (s : List Char) : Except String BWTTransformDict :=
  if s = [] then Except.error "The parameter s must not be empty."
  else
    let rotations := pySort (all_rotations s)
    Except.ok { bwt_string := rotations.map lastChar,
                idx_original_string := listIndex s rotations }

/-- One pass of the reconstruction loop of `reverse_bwt`: prepend
`bwt_string[i]` to row `i` for every `i`, then re-sort all rows. -/
def bwt_round (bwt_string : List Char) (rows : List (List Char)) :
    List (List Char) :=
  pySort (List.zipWith (fun c r => c :: r) bwt_string rows)

/-- The `for _ in range(len(bwt_string))` loop of `reverse_bwt`. -/
def bwt_rounds (bwt_string : List Char) :
    Nat → List (List Char) → List (List Char)
  | 0, rows => rows
  | k + 1, rows => bwt_rounds bwt_string k (bwt_round bwt_string rows)

/-- `reverse_bwt`, with its guards in source order.  `int(...)` on an
integer argument is the identity, so `idx_original_string` enters as `Int`;
each `raise ValueError` becomes `Except.error`. -/
def reverse_bwt (bwt_string : List Char) (idx_original_string : Int) :
    Except String (List Char) :=
  if bwt_string = [] then
    Except.error "The parameter bwt_string must not be empty."
  else if idx_original_string < 0 then
    Except.error "The parameter idx_original_string must not be lower than 0."
  else if (bwt_string.length : Int) ≤ idx_original_string then
    Except.error "The parameter idx_original_string must be lower than len(bwt_string)."
  else
    Except.ok ((bwt_rounds bwt_string bwt_string.length
      (List.replicate bwt_string.length [])).getD idx_original_string.toNat [])

/-- Rotation `i` of `s` (proof-side abbreviation for the comprehension
inside `all_rotations`). -/
def rot (s : List Char) (i : Nat) : List Char := s.drop i ++ s.take i

/-- Rotate a nonempty string right by one position (proof-side helper:
the last character moves to the front). -/
def rotr (w : List Char) : List Char := lastChar w :: w.dropLast

/-! ## Huffman coder (`huffman.py`)

Symbols (the elements of `raw_file_list`, single-character Python strings
in practice) are modelled as Lean `String`, so that `return_key`'s
sentinel return value `"Key Not Found"` lives in the same type as the
symbols, exactly as in Python. -/

/-- `d[k] = v` on a Python dict modelled as an association list: replace
in place if the key is present, else append. -/
def dinsert {α β : Type} [DecidableEq α] :
    List (α × β) → α → β → List (α × β)
  | [], k, v => [(k, v)]
  | (k', v') :: t, k, v =>
      if k' = k then (k', v) :: t else (k', v') :: dinsert t k v

/-- `d[k]` / `k in d` on a Python dict modelled as an association list. -/
def alookup {α β : Type} [DecidableEq α] : List (α × β) → α → Option β
  | [], _ => none
  | (k', v') :: t, k => if k' = k then some v' else alookup t k

/-- A Python dict comprehension `{k: v for (k, v) in l}`: entries in
order, later entries overwriting earlier ones. -/
def dictOf {α β : Type} [DecidableEq α] (l : List (α × β)) : List (α × β) :=
  l.foldl (fun d e => dinsert d e.1 e.2) []

/-- The dynamically typed `Letter | TreeNode` merge-tree node as a tagged
variant: a `Letter` carries its symbol and frequency, a `TreeNode` its
summed frequency and two children. -/
inductive HTree where
  | leaf (letter : String) (freq : Nat)
  | node (freq : Nat) (left right : HTree)
deriving DecidableEq

/-- `x.freq` on either a `Letter` or a `TreeNode`. -/
def HTree.freq : HTree → Nat
  | leaf _ f => f
  | node f _ _ => f

/-- The symbols at the leaves of a merge tree, in traversal order
(proof-side helper). -/
def HTree.letters : HTree → List String
  | leaf c _ => [c]
  | node _ l r => l.letters ++ r.letters

/-- `chars[c] = chars[c] + 1 if c in chars else 1`, keeping Python's dict
insertion order. -/
def bump : List (String × Nat) → String → List (String × Nat)
  | [], c => [(c, 1)]
  | (k, n) :: t, c => if k = c then (k, n + 1) :: t else (k, n) :: bump t c

/-- The frequency dict built by `parse_file`, in insertion order. -/
def tally (raw_file_list : List String) : List (String × Nat) :=
  raw_file_list.foldl bump []

/-- `sorted(..., key=lambda x: x.freq)` / `response.sort(key=...)`: sort
by frequency.  Python's sort is stable; a sort by the `freq` key can
differ from it only in the relative order of equal-frequency nodes, on
which none of the verified properties depend. -/
def sortByFreq (l : List HTree) : List HTree :=
  List.insertionSort (fun a b => a.freq ≤ b.freq) l

/-- `parse_file`: frequency dict, then the `Letter` list sorted ascending
by frequency (each `Letter` enters `build_tree` as a leaf). -/
def parse_file (raw_file_list : List String) : List HTree :=
  sortByFreq ((tally raw_file_list).map (fun e => HTree.leaf e.1 e.2))

/-- The `while len(response) > 1` loop of `build_tree`: pop the two
lowest-frequency nodes, merge, append, re-sort.  Structural on a budget;
each pass shortens the list by one, so `letters.length` is sufficient. -/
def build_tree_go : Nat → List HTree → List HTree
  | 0, response => response
  | fuel + 1, left :: right :: rest =>
      build_tree_go fuel
        (sortByFreq (rest ++ [HTree.node (left.freq + right.freq) left right]))
  | _ + 1, response => response

/-- `build_tree`: merge down to a single root; `response[0]` raises
`IndexError` on an empty list, hence `Option`. -/
def build_tree (letters : List HTree) : Option HTree :=
  (build_tree_go letters.length letters).head?

/-- `traverse_tree`: depth-first traversal accumulating the bitstring;
the per-leaf `bitstring` dict entries are returned as one association
list in traversal order. -/
def traverse_tree : HTree → List Bool → List (String × List Bool)
  | HTree.leaf c _, bitstring => [(c, bitstring)]
  | HTree.node _ l r, bitstring =>
      traverse_tree l (bitstring ++ [false]) ++
        traverse_tree r (bitstring ++ [true])

/-- The record the Python code calls `HuffmanDict`. -/
structure HuffmanDict where
  Huf_encode : List (List Bool)
  Huf_letters : List (String × List Bool)
deriving DecidableEq

/-- `huffman_encode`.  The dict comprehension over `traverse_tree` becomes
`dictOf`; `letters[c]` cannot miss (the table is built from the input's
own symbols — proved below), so the lookup's `Option` is discharged with
a default that is never reached. -/
def huffman_encode (raw_file_list : List String) : Option HuffmanDict :=
  match build_tree (parse_file raw_file_list) with
  | none => none
  | some root =>
      let letters := dictOf (traverse_tree root [])
      some { Huf_encode :=
               raw_file_list.map (fun c => (alookup letters c).getD []),
             Huf_letters := letters }

/-- `return_key`: scan the dict items in order; the string
`"Key Not Found"` is returned — not an exception raised — when no value
matches. -/
def return_key : List (String × List Bool) → List Bool → String
  | [], _ => "Key Not Found"
  | (key, value) :: t, item =>
      if value = item then key else return_key t item

/-- `huffman_decode`: reverse-look-up every code. -/
def huffman_decode (huf_file : HuffmanDict) : List String :=
  huf_file.Huf_encode.map (return_key huf_file.Huf_letters)

/-! ## LZW bit coder (`lempel_ziv.py`) -/

/-- `lexicon.pop(k)`: remove the entry with key `k` (always present where
the Python code calls it; a missing key would raise, modelled as removing
nothing). -/
def dpop {α β : Type} [DecidableEq α] : List (α × β) → α → List (α × β)
  | [], _ => []
  | (k', v') :: t, k => if k' = k then t else (k', v') :: dpop t k

/-- The initial lexicon `{"0": "0", "1": "1"}` of both coders. -/
def initLex : List (List Bool × List Bool) :=
  [([false], [false]), ([true], [true])]

/-- `add_key_to_lexicon` from `lempel_ziv.py`: drop the matched candidate,
map `curr_string + "0"` to the code just emitted, on a power-of-two index
prepend `"0"` to every stored code, then map `curr_string + "1"` to
`bin(index)`. -/
def add_key_to_lexicon (lexicon : List (List Bool × List Bool))
    (curr_string : List Bool) (index : Nat) (last_match_id : List Bool) :
    List (List Bool × List Bool) :=
  let l1 := dpop lexicon curr_string
  let l2 := dinsert l1 (curr_string ++ [false]) last_match_id
  let l3 := if isPow2 index then l2.map (fun e => (e.1, false :: e.2)) else l2
  dinsert l3 (curr_string ++ [true]) (natBits index)

/-- Compressor loop state: lexicon, running `index`, current candidate
`curr_string`, output accumulated so far. -/
structure CState where
  lexicon : List (List Bool × List Bool)
  index : Nat
  curr_string : List Bool
  result : List Bool
deriving DecidableEq

/-- One iteration of the scanning loop of `compress_data`. -/
def compress_step (s : CState) (b : Bool) : CState :=
  let curr := s.curr_string ++ [b]
  match alookup s.lexicon curr with
  | none => { s with curr_string := curr }
  | some last_match_id =>
      { lexicon := add_key_to_lexicon s.lexicon curr s.index last_match_id,
        index := s.index + 1,
        curr_string := [],
        result := s.result ++ last_match_id }

/-- The longest key of a lexicon — the budget for the padding loop. -/
def maxKeyLen (lexicon : List (List Bool × List Bool)) : Nat :=
  lexicon.foldr (fun e m => max e.1.length m) 0

/-- The `while curr_string != "" and curr_string not in lexicon` padding
loop at the end of `compress_data`, structurally on a budget (a budget
beyond the longest lexicon key always suffices — proved below; the
exhausted-budget `none` is unreachable from the scan's states). -/
def padLoop (lexicon : List (List Bool × List Bool)) :
    Nat → List Bool → Option (List Bool)
  | 0, _ => none
  | fuel + 1, curr =>
      if curr = [] then some curr
      else
        match alookup lexicon curr with
        | some _ => some curr
        | none => padLoop lexicon fuel (curr ++ [false])

/-- `compress_data` from `lempel_ziv.py`: scan the input, then pad any
leftover candidate with `"0"` bits until it matches and flush its code. -/
def compress_data (data_bits : List Bool) : Option (List Bool) :=
  let s := data_bits.foldl compress_step ⟨initLex, 2, [], []⟩
  match padLoop s.lexicon (maxKeyLen s.lexicon + 1) s.curr_string with
  | none => none
  | some [] => some s.result
  | some curr =>
      (alookup s.lexicon curr).map
        (fun last_match_id => s.result ++ last_match_id)

/-- The lexicon update inside the match branch of `decompress_data`:
remap the matched code to `last_match_id + "0"`, on a power-of-two index
rebuild the dict with `"0"`-prefixed keys, then map `bin(index)` to
`last_match_id + "1"`. -/
def decompress_update (lexicon : List (List Bool × List Bool))
    (curr_string : List Bool) (index : Nat) (last_match_id : List Bool) :
    List (List Bool × List Bool) :=
  let l1 := dinsert lexicon curr_string (last_match_id ++ [false])
  let l2 := if isPow2 index then l1.map (fun e => (false :: e.1, e.2)) else l1
  dinsert l2 (natBits index) (last_match_id ++ [true])

/-- Decompressor loop state. -/
structure DState where
  lexicon : List (List Bool × List Bool)
  index : Nat
  curr_string : List Bool
  result : List Bool
deriving DecidableEq

/-- One iteration of the scanning loop of `decompress_data`. -/
def decompress_step (s : DState) (b : Bool) : DState :=
  let curr := s.curr_string ++ [b]
  match alookup s.lexicon curr with
  | none => { s with curr_string := curr }
  | some last_match_id =>
      { lexicon := decompress_update s.lexicon curr s.index last_match_id,
        index := s.index + 1,
        curr_string := [],
        result := s.result ++ last_match_id }

/-- `decompress_data` from `lempel_ziv.py`. -/
def decompress_data (data_bits : List Bool) : List Bool :=
  (data_bits.foldl decompress_step ⟨initLex, 2, [], []⟩).result

/-- `"0" * (w - len(bin(n)[2:])) + bin(n)[2:]`: the code of `n` padded to
width `w` (proof-side: the shape of every code a lexicon stores). -/
def padWidth (w : Nat) (n : Nat) : List Bool :=
  List.replicate (w - (natBits n).length) false ++ natBits n

/-- The coupled compressor/decompressor lexicon invariant: the decoder's
dict is the inverse of the encoder's, the stored codes are exactly the
width-`w` binary forms of `0 .. index-1` (`w` the bit width of
`index - 1`), and the encoder's keys form a complete prefix code. -/
structure LZWInv (clex dlex : List (List Bool × List Bool))
    (index : Nat) : Prop where
  hkc : (clex.map Prod.fst).Nodup
  hkd : (dlex.map Prod.fst).Nodup
  swap : ∀ p : List Bool × List Bool, p ∈ clex ↔ (p.2, p.1) ∈ dlex
  dense : (clex.map Prod.snd).Perm
    ((List.range index).map (padWidth (natBits (index - 1)).length))
  knonempty : ∀ p ∈ clex, p.1 ≠ []
  pf : List.Pairwise (fun k₁ k₂ => ¬ k₁ <+: k₂ ∧ ¬ k₂ <+: k₁)
    (clex.map Prod.fst)
  comp : ∀ l : List Bool, (∃ k ∈ clex.map Prod.fst, k <+: l) ∨
    (∃ k ∈ clex.map Prod.fst, l <+: k ∧ l ≠ k)
  hidx : 2 ≤ index

example : compress_data [true, true] = some [true, false, true] := by decide
example : decompress_data [true, false, true] = [true, true, false] := by
  decide
example : compress_data [false] = some [false] := by decide
example : decompress_data [false] = [false] := by decide

example : (huffman_encode ["a", "b", "a"]).map huffman_decode =
    some ["a", "b", "a"] := by decide
example : huffman_encode ["a"] =
    some { Huf_encode := [[]], Huf_letters := [("a", [])] } := by decide

example : natBits 6 = [true, true, false] := by decide
example : isPow2 8 = true ∧ isPow2 6 = false := by decide
example : bitsToNat [true, true, false] = 6 := by decide
example : toChunks8 [true, false, true] = [[true, false, true]] := by decide
example : remove_prefix' [false, true, true, false, true] = [false, true] := by
  decide

/-! ## Fuel invariance -/

theorem natBitsGo_eq (f₁ : Nat) : ∀ f₂ n, n ≤ f₁ → n ≤ f₂ →
    natBitsGo f₁ n = natBitsGo f₂ n := by
  induction f₁ with
  | zero =>
    intro f₂ n h1 _
    interval_cases n
    cases f₂ <;> rfl
  | succ f₁ ih =>
    intro f₂ n h1 h2
    match n, f₂ with
    | 0, f₂ => cases f₂ <;> rfl
    | 1, f₂ => match f₂ with | f₂ + 1 => rfl
    | n + 2, f₂ + 1 =>
      show natBitsGo f₁ ((n + 2) / 2) ++ _ = natBitsGo f₂ ((n + 2) / 2) ++ _
      rw [ih f₂ ((n + 2) / 2) (by omega) (by omega)]

theorem natBits_two_add (n : Nat) :
    natBits (n + 2) = natBits ((n + 2) / 2) ++ [decide ((n + 2) % 2 = 1)] := by
  show natBitsGo (n + 1 + 1) (n + 2) = _
  show natBitsGo (n + 1) ((n + 2) / 2) ++ _ = _
  rw [natBitsGo_eq (n + 1) ((n + 2) / 2) ((n + 2) / 2) (by omega) le_rfl]
  rfl

theorem isPow2Go_eq (f₁ : Nat) : ∀ f₂ n, n ≤ f₁ → n ≤ f₂ →
    isPow2Go f₁ n = isPow2Go f₂ n := by
  induction f₁ with
  | zero =>
    intro f₂ n h1 _
    interval_cases n
    cases f₂ <;> rfl
  | succ f₁ ih =>
    intro f₂ n h1 h2
    match n, f₂ with
    | 0, f₂ => cases f₂ <;> rfl
    | 1, f₂ => match f₂ with | f₂ + 1 => rfl
    | n + 2, f₂ + 1 =>
      show (_ && isPow2Go f₁ ((n + 2) / 2)) = (_ && isPow2Go f₂ ((n + 2) / 2))
      rw [ih f₂ ((n + 2) / 2) (by omega) (by omega)]

theorem isPow2_two_add (n : Nat) :
    isPow2 (n + 2) = (decide ((n + 2) % 2 = 0) && isPow2 ((n + 2) / 2)) := by
  show isPow2Go (n + 1 + 1) (n + 2) = _
  show (_ && isPow2Go (n + 1) ((n + 2) / 2)) = _
  rw [isPow2Go_eq (n + 1) ((n + 2) / 2) ((n + 2) / 2) (by omega) le_rfl]
  rfl

theorem toChunks8Go_eq (f₁ : Nat) : ∀ f₂ (l : List Bool), l.length ≤ f₁ →
    l.length ≤ f₂ → toChunks8Go f₁ l = toChunks8Go f₂ l := by
  induction f₁ with
  | zero =>
    intro f₂ l h1 _
    have hl : l = [] := List.length_eq_zero.mp (by omega)
    subst hl
    cases f₂ <;> rfl
  | succ f₁ ih =>
    intro f₂ l h1 h2
    match l, f₂ with
    | [], f₂ => cases f₂ <;> rfl
    | a :: l, f₂ + 1 =>
      simp only [List.length_cons] at h1 h2
      show ((a :: l).take 8) :: toChunks8Go f₁ ((a :: l).drop 8) = _
      rw [ih f₂ ((a :: l).drop 8)
        (by simp only [List.length_drop, List.length_cons]; omega)
        (by simp only [List.length_drop, List.length_cons]; omega)]
      rfl

theorem toChunks8_cons (a : Bool) (l : List Bool) :
    toChunks8 (a :: l) = ((a :: l).take 8) :: toChunks8 ((a :: l).drop 8) := by
  show toChunks8Go (l.length + 1) (a :: l) = _
  show ((a :: l).take 8) :: toChunks8Go l.length ((a :: l).drop 8) = _
  rw [toChunks8Go_eq l.length ((a :: l).drop 8).length ((a :: l).drop 8)
    (by simp only [List.length_drop, List.length_cons]; omega) le_rfl]
  rfl

/-! ## Basic facts about the bit utilities -/

theorem natBits_ne_nil (n : Nat) : natBits n ≠ [] := by
  match n with
  | 0 => exact fun h => by simp [natBits, natBitsGo] at h
  | 1 => exact fun h => by simp [natBits, natBitsGo] at h
  | n + 2 => rw [natBits_two_add]; simp

theorem natBits_head (n : Nat) (hn : 1 ≤ n) :
    ∃ tl, natBits n = true :: tl := by
  induction n using Nat.strong_induction_on with
  | _ n ih =>
    match n, hn with
    | 1, _ => exact ⟨[], rfl⟩
    | n + 2, _ =>
      obtain ⟨tl, htl⟩ := ih ((n + 2) / 2) (by omega) (by omega)
      refine ⟨tl ++ [decide ((n + 2) % 2 = 1)], ?_⟩
      rw [natBits_two_add, htl]
      rfl

theorem takeWhile_replicate_false (k : Nat) (rest : List Bool) :
    (List.replicate k false ++ true :: rest).takeWhile (fun b => !b) =
      List.replicate k false := by
  induction k with
  | zero => rfl
  | succ k ih => simp [List.replicate_succ, List.takeWhile_cons, ih]

theorem takeWhile_all_false (d : List Bool) (h : ∀ b ∈ d, b = false) :
    d.takeWhile (fun b => !b) = d := by
  induction d with
  | nil => rfl
  | cons a d ih =>
    have ha : a = false := h a (by simp)
    subst ha
    simp only [List.takeWhile_cons]
    rw [ih fun b hb => h b (by simp [hb])]
    rfl

theorem remove_prefix_framed (k : Nat) (rest : List Bool) :
    remove_prefix' (List.replicate k false ++ true :: rest) = rest.drop k := by
  simp only [remove_prefix']
  rw [takeWhile_replicate_false, List.length_replicate]
  have h1 : List.drop k (List.replicate k false ++ true :: rest) =
      true :: rest := by
    induction k with
    | zero => rfl
    | succ k ih => simp [List.replicate_succ, ih]
  rw [h1]
  rfl

/-! ## Chunk structure of `write_file_binary` -/

theorem toChunks8_flatten_bounded :
    ∀ (n : Nat) (l : List Bool), l.length ≤ n → (toChunks8 l).flatten = l := by
  intro n
  induction n with
  | zero =>
    intro l hl
    have : l = [] := List.length_eq_zero.mp (by omega)
    subst this
    rfl
  | succ n ih =>
    intro l hl
    match l with
    | [] => rfl
    | a :: l =>
      rw [toChunks8_cons]
      simp only [List.flatten_cons]
      rw [ih ((a :: l).drop 8)
        (by simp only [List.length_drop, List.length_cons] at hl ⊢; omega)]
      exact List.take_append_drop 8 (a :: l)

theorem toChunks8_flatten (l : List Bool) : (toChunks8 l).flatten = l :=
  toChunks8_flatten_bounded l.length l le_rfl

theorem toChunks8_structure :
    ∀ (n : Nat) (l : List Bool), l.length ≤ n → l ≠ [] →
    ∃ front last, toChunks8 l = front ++ [last] ∧
      (∀ c ∈ front, c.length = 8) ∧ 1 ≤ last.length ∧ last.length ≤ 8 := by
  intro n
  induction n with
  | zero =>
    intro l hl hne
    exact absurd (List.length_eq_zero.mp (by omega)) hne
  | succ n ih =>
    intro l hl hne
    match l with
    | a :: l =>
      rw [toChunks8_cons]
      by_cases hd : (a :: l).drop 8 = []
      · refine ⟨[], (a :: l).take 8, by rw [hd]; rfl, by simp, ?_, ?_⟩
        · simp only [List.length_take, List.length_cons]
          omega
        · simp only [List.length_take]
          omega
      · obtain ⟨front, last, heq, hfront, h1, h8⟩ := ih ((a :: l).drop 8)
          (by simp only [List.length_drop, List.length_cons] at hl ⊢; omega) hd
        refine ⟨(a :: l).take 8 :: front, last, by rw [heq]; rfl, ?_, h1, h8⟩
        intro c hc
        rcases List.mem_cons.mp hc with h | h
        · subst h
          have : 8 ≤ (a :: l).length := by
            by_contra hlen
            exact hd (List.drop_eq_nil_of_le (by omega))
          simp only [List.length_take]
          omega
        · exact hfront c h

/-! ## Byte round trip -/

theorem natToBits8_bitsToNat (l : List Bool) (h : l.length = 8) :
    natToBits8 (bitsToNat l) = l := by
  obtain ⟨a, l, rfl⟩ := @List.exists_cons_of_ne_nil Bool l
    (fun he => by rw [he] at h; simp at h)
  obtain ⟨b, l, rfl⟩ := @List.exists_cons_of_ne_nil Bool l
    (fun he => by rw [he] at h; simp at h)
  obtain ⟨c, l, rfl⟩ := @List.exists_cons_of_ne_nil Bool l
    (fun he => by rw [he] at h; simp at h)
  obtain ⟨d, l, rfl⟩ := @List.exists_cons_of_ne_nil Bool l
    (fun he => by rw [he] at h; simp at h)
  obtain ⟨e, l, rfl⟩ := @List.exists_cons_of_ne_nil Bool l
    (fun he => by rw [he] at h; simp at h)
  obtain ⟨f, l, rfl⟩ := @List.exists_cons_of_ne_nil Bool l
    (fun he => by rw [he] at h; simp at h)
  obtain ⟨g, l, rfl⟩ := @List.exists_cons_of_ne_nil Bool l
    (fun he => by rw [he] at h; simp at h)
  obtain ⟨i, l, rfl⟩ := @List.exists_cons_of_ne_nil Bool l
    (fun he => by rw [he] at h; simp at h)
  have : l = [] := by
    simp only [List.length_cons] at h
    exact List.length_eq_zero.mp (by omega)
  subst this
  revert a b c d e f g i
  decide

theorem read_map_bitsToNat (arr : List (List Bool))
    (h : ∀ c ∈ arr, c.length = 8) :
    read_file_binary (arr.map bitsToNat) = arr.flatten := by
  induction arr with
  | nil => rfl
  | cons c arr ih =>
    simp only [List.map_cons, read_file_binary, List.flatMap_cons,
      List.flatten_cons]
    rw [natToBits8_bitsToNat c (h c (by simp))]
    rw [show (arr.map bitsToNat).flatMap natToBits8 =
      read_file_binary (arr.map bitsToNat) from rfl]
    rw [ih fun c hc => h c (by simp [hc])]

/-- Packing then unpacking appends exactly the byte-alignment sentinel: a
`1` bit followed by zero bits up to the next byte boundary. -/
theorem write_read_file_binary (w : List Bool) (hw : w ≠ []) :
    ∃ bytes j, write_file_binary w = some bytes ∧
      read_file_binary bytes = w ++ true :: List.replicate j false := by
  obtain ⟨front, last, heq, hfront, h1, h8⟩ :=
    toChunks8_structure w.length w le_rfl hw
  have hlast : (toChunks8 w).getLast? = some last := by
    rw [heq]
    exact List.getLast?_concat front
  by_cases hmod : last.length % 8 = 0
  · have hl8 : last.length = 8 := by omega
    have hwrite : write_file_binary w =
        some ((toChunks8 w ++ [sentinelByte]).map bitsToNat) := by
      unfold write_file_binary
      rw [hlast]
      simp only [hmod, if_true]
    refine ⟨_, 7, hwrite, ?_⟩
    rw [read_map_bitsToNat]
    · rw [List.flatten_concat, toChunks8_flatten]
      rfl
    · intro c hc
      rcases List.mem_append.mp hc with h | h
      · rw [heq] at h
        rcases List.mem_append.mp h with h | h
        · exact hfront c h
        · simp only [List.mem_singleton] at h
          subst h
          exact hl8
      · simp only [List.mem_singleton] at h
        subst h
        rfl
  · have hl8' : last.length < 8 := by omega
    have hwrite : write_file_binary w =
        some (((toChunks8 w).dropLast ++ [last ++ true ::
          List.replicate (8 - last.length - 1) false]).map bitsToNat) := by
      unfold write_file_binary
      rw [hlast]
      simp only [hmod, if_false]
    refine ⟨_, 8 - last.length - 1, hwrite, ?_⟩
    rw [read_map_bitsToNat]
    · rw [heq, List.dropLast_concat, List.flatten_concat]
      have hshift : front.flatten ++ (last ++ true ::
          List.replicate (8 - last.length - 1) false) =
          (front ++ [last]).flatten ++ true ::
            List.replicate (8 - last.length - 1) false := by
        rw [List.flatten_concat]
        simp
      rw [hshift, ← heq, toChunks8_flatten]
    · intro c hc
      rcases List.mem_append.mp hc with h | h
      · rw [heq, List.dropLast_concat] at h
        exact hfront c h
      · simp only [List.mem_singleton] at h
        subst h
        simp only [List.length_append, List.length_cons, List.length_replicate]
        omega

/-! ## Claim C8: framing round trip -/

/-- C8, as stated, is false: for `p = "1"` the unframed stream is
`"1100000"`, not `"1"` — `remove_prefix` strips only the length prefix and
leaves the byte-alignment sentinel `1` and its zero padding in place. -/
theorem C8_counterexample :
    write_file_binary (add_file_length ([true] : List Bool).length [true]) =
      some [224] ∧
    remove_prefix' (read_file_binary [224]) ≠ [true] := by decide

/-- C8 (amended): for every non-empty bit sequence `p`, unframing the
framed stream built from `p` and its length yields `p` followed by the
byte-alignment sentinel: a single `1` bit and then zero bits up to the byte
boundary.  (`p` itself is recovered as a prefix; the sentinel is not
stripped by `remove_prefix`.) -/
theorem C8_framing_roundtrip (p : List Bool) (hp : p ≠ []) :
    ∃ bytes j, write_file_binary (add_file_length p.length p) = some bytes ∧
      remove_prefix' (read_file_binary bytes) =
        p ++ true :: List.replicate j false := by
  have hlen : 1 ≤ p.length := List.length_pos.mpr hp
  obtain ⟨tl, htl⟩ := natBits_head p.length hlen
  have hne : add_file_length p.length p ≠ [] := by
    unfold add_file_length
    intro h
    rw [List.append_assoc] at h
    rcases List.append_eq_nil.mp h with ⟨-, h2⟩
    exact natBits_ne_nil p.length (List.append_eq_nil.mp h2).1
  obtain ⟨bytes, j, hwrite, hread⟩ :=
    write_read_file_binary (add_file_length p.length p) hne
  refine ⟨bytes, j, hwrite, ?_⟩
  rw [hread]
  unfold add_file_length
  rw [htl]
  have hshape : (List.replicate ((true :: tl).length - 1) false ++
      (true :: tl) ++ p) ++ true :: List.replicate j false =
      List.replicate tl.length false ++
        true :: (tl ++ p ++ true :: List.replicate j false) := by
    simp only [List.length_cons, Nat.add_sub_cancel]
    simp [List.append_assoc]
  rw [hshape, remove_prefix_framed]
  rw [List.append_assoc, List.drop_left]

/-- Witness for C8 at `p = [true]`. -/
theorem C8_framing_roundtrip_witness :
    ([true] : List Bool) ≠ [] ∧
    ∃ bytes j,
      write_file_binary (add_file_length ([true] : List Bool).length [true]) =
        some bytes ∧
      remove_prefix' (read_file_binary bytes) =
        [true] ++ true :: List.replicate j false :=
  ⟨by decide, C8_framing_roundtrip [true] (by decide)⟩

/-! ## Claim C9: unframing on malformed input -/

/-- C9, as stated, is false: on the sentinel-less input `"00"`,
`remove_prefix` raises nothing and silently returns the empty string. -/
theorem C9_counterexample :
    (∀ b ∈ [false, false], b = false) ∧
    remove_prefix' [false, false] = [] := by decide

/-- C9 (amended): `remove_prefix` never fails.  On an input with no `1`
sentinel it silently returns the empty string, and on an input whose
stated length prefix exceeds the remaining bits it silently returns the
empty string; no error is raised in either case. -/
theorem C9_remove_prefix_silent (d rest : List Bool) (k : Nat) :
    ((∀ b ∈ d, b = false) → remove_prefix' d = []) ∧
    (rest.length ≤ k →
      remove_prefix' (List.replicate k false ++ true :: rest) = []) := by
  constructor
  · intro h
    unfold remove_prefix'
    rw [takeWhile_all_false d h]
    simp
  · intro h
    rw [remove_prefix_framed]
    exact List.drop_eq_nil_of_le h

/-- Witness for C9 at the sentinel-less input `"00"` and at the truncated
stream `"001"`. -/
theorem C9_remove_prefix_silent_witness :
    remove_prefix' [false, false] = [] ∧
    remove_prefix' (List.replicate 2 false ++ true :: [true]) = [] :=
  ⟨(C9_remove_prefix_silent [false, false] [] 0).1 (by decide),
   (C9_remove_prefix_silent [] [true] 2).2 (by decide)⟩

/-! ## Order lemmas for the BWT argument -/

theorem nil_le_list (l : List Char) : ([] : List Char) ≤ l := by
  cases l with
  | nil => exact le_refl _
  | cons a t => exact le_of_lt List.Lex.nil

theorem take_lex_le (k : Nat) {a b : List Char}
    (h : List.Lex (· < ·) a b) : a.take k ≤ b.take k := by
  induction h generalizing k with
  | nil => simp only [List.take_nil]; exact nil_le_list _
  | cons h ih =>
    cases k with
    | zero => exact le_refl _
    | succ k =>
      simp only [List.take_succ_cons]
      rcases lt_or_eq_of_le (ih k) with hlt | heq
      · exact le_of_lt (List.Lex.cons hlt)
      · rw [heq]
  | rel h =>
    cases k with
    | zero => exact le_refl _
    | succ k =>
      simp only [List.take_succ_cons]
      exact le_of_lt (List.Lex.rel h)

theorem take_le_take (k : Nat) {a b : List Char} (h : a ≤ b) :
    a.take k ≤ b.take k := by
  rcases lt_or_eq_of_le h with hlt | heq
  · exact take_lex_le k hlt
  · rw [heq]

theorem sorted_map_take (k : Nat) {R : List (List Char)}
    (h : List.Sorted (· ≤ ·) R) :
    List.Sorted (· ≤ ·) (R.map (List.take k)) :=
  List.Pairwise.map _ (fun _ _ hab => take_le_take k hab) h

theorem pySort_sorted (l : List (List Char)) :
    List.Sorted (· ≤ ·) (pySort l) :=
  List.sorted_insertionSort _ _

theorem pySort_perm (l : List (List Char)) : (pySort l).Perm l :=
  List.perm_insertionSort _ _

theorem pySort_eq_of_sorted (l m : List (List Char)) (hp : l.Perm m)
    (hm : List.Sorted (· ≤ ·) m) : pySort l = m :=
  List.eq_of_perm_of_sorted ((pySort_perm l).trans hp) (pySort_sorted l) hm

/-! ## Rotation lemmas -/

theorem all_rotations_eq_map (s : List Char) :
    all_rotations s = (List.range s.length).map (rot s) := rfl

theorem rot_zero (s : List Char) : rot s 0 = s := by simp [rot]

theorem rot_full (s : List Char) : rot s s.length = s := by simp [rot]

theorem rot_length (s : List Char) (i : Nat) :
    (rot s i).length = s.length := by
  simp only [rot, List.length_append, List.length_drop, List.length_take]
  omega

theorem rotr_rot_succ (s : List Char) (i : Nat) (hi : i < s.length) :
    rotr (rot s (i + 1)) = rot s i := by
  have htake : s.take (i + 1) = s.take i ++ [s[i]] := by
    rw [List.take_succ, List.getElem?_eq_getElem hi]
    rfl
  show lastChar (rot s (i + 1)) :: (rot s (i + 1)).dropLast = rot s i
  unfold rot lastChar
  rw [htake, ← List.append_assoc, List.getLastD_concat, List.dropLast_concat,
    List.drop_eq_getElem_cons hi]
  rfl

theorem map_rotr_perm (s : List Char) (hs : s ≠ []) :
    ((all_rotations s).map rotr).Perm (all_rotations s) := by
  obtain ⟨m, hm⟩ : ∃ m, s.length = m + 1 :=
    ⟨s.length - 1, by have := List.length_pos.mpr hs; omega⟩
  have hshift : ((List.range s.length).map (fun i => rot s (i + 1))).Perm
      ((List.range s.length).map (rot s)) := by
    conv_lhs => rw [hm, List.range_succ]
    conv_rhs => rw [hm, List.range_succ_eq_map]
    simp only [List.map_append, List.map_cons, List.map_map, List.map_nil]
    have h1 : rot s (m + 1) = rot s 0 := by rw [rot_zero, ← hm, rot_full]
    rw [h1]
    exact List.perm_append_singleton _ _
  have h3 : ((List.range s.length).map (fun i => rot s (i + 1))).map rotr =
      (List.range s.length).map (rot s) := by
    rw [List.map_map]
    exact List.map_congr_left
      (fun i hi => rotr_rot_succ s i (List.mem_range.mp hi))
  have h4 := (hshift.map rotr).symm
  rw [h3] at h4
  rw [all_rotations_eq_map]
  exact h4

theorem mem_sortedRots_length (s : List Char) {ρ : List Char}
    (hρ : ρ ∈ pySort (all_rotations s)) : ρ.length = s.length := by
  have hmem := (pySort_perm _).mem_iff.mp hρ
  rw [all_rotations_eq_map] at hmem
  obtain ⟨i, _, rfl⟩ := List.mem_map.mp hmem
  exact rot_length s i

theorem sortedRots_length (s : List Char) :
    (pySort (all_rotations s)).length = s.length := by
  unfold pySort
  rw [List.length_insertionSort]
  simp [all_rotations]

/-! ## The reconstruction invariant -/

theorem zipWith_cons_map (f : List Char → Char)
    (g : List Char → List Char) (R : List (List Char)) :
    List.zipWith (fun c r => c :: r) (R.map f) (R.map g) =
      R.map (fun ρ => f ρ :: g ρ) := by
  induction R with
  | nil => rfl
  | cons ρ R ih => simp [ih]

theorem bwt_round_step (s : List Char) (hs : s ≠ []) (k : Nat)
    (hk : k < s.length) :
    bwt_round ((pySort (all_rotations s)).map lastChar)
        ((pySort (all_rotations s)).map (List.take k)) =
      (pySort (all_rotations s)).map (List.take (k + 1)) := by
  have hperm : (pySort (all_rotations s)).Perm (all_rotations s) :=
    pySort_perm _
  unfold bwt_round
  rw [zipWith_cons_map]
  have hmap : (pySort (all_rotations s)).map (fun ρ => lastChar ρ :: ρ.take k)
      = ((pySort (all_rotations s)).map rotr).map (List.take (k + 1)) := by
    rw [List.map_map]
    refine List.map_congr_left (fun ρ hρ => ?_)
    have hρlen := mem_sortedRots_length s hρ
    have hd : List.take k ρ.dropLast = List.take k ρ := by
      rw [List.dropLast_eq_take, List.take_take,
        inf_eq_left.mpr (by omega)]
    show lastChar ρ :: ρ.take k = List.take (k + 1) (rotr ρ)
    rw [show rotr ρ = lastChar ρ :: ρ.dropLast from rfl,
      List.take_succ_cons, hd]
  rw [hmap]
  apply pySort_eq_of_sorted
  · refine List.Perm.map _ ?_
    exact ((hperm.map rotr).trans (map_rotr_perm s hs)).trans hperm.symm
  · exact sorted_map_take (k + 1) (pySort_sorted _)

theorem bwt_rounds_inv (s : List Char) (hs : s ≠ []) :
    ∀ j, j ≤ s.length →
      bwt_rounds ((pySort (all_rotations s)).map lastChar) j
        ((pySort (all_rotations s)).map (List.take (s.length - j))) =
      (pySort (all_rotations s)).map (List.take s.length) := by
  have hn := List.length_pos.mpr hs
  intro j
  induction j with
  | zero => intro _; rw [Nat.sub_zero]; rfl
  | succ j ih =>
    intro hj
    show bwt_rounds _ j (bwt_round _ _) = _
    have hstep := bwt_round_step s hs (s.length - (j + 1)) (by omega)
    rw [show s.length - (j + 1) + 1 = s.length - j from by omega] at hstep
    rw [hstep]
    exact ih (by omega)

theorem bwt_reconstruction (s : List Char) (hs : s ≠ []) :
    bwt_rounds ((pySort (all_rotations s)).map lastChar) s.length
      (List.replicate s.length []) = pySort (all_rotations s) := by
  have h0 : List.replicate s.length ([] : List Char) =
      (pySort (all_rotations s)).map (List.take (s.length - s.length)) := by
    have htz : (List.take 0 : List Char → List Char) = fun _ => [] := by
      funext l
      exact List.take_zero l
    rw [Nat.sub_self, htz, List.map_const', sortedRots_length]
  rw [h0, bwt_rounds_inv s hs s.length le_rfl]
  have hid : (pySort (all_rotations s)).map (List.take s.length) =
      (pySort (all_rotations s)).map id :=
    List.map_congr_left (fun ρ hρ => by
      rw [List.take_of_length_le (le_of_eq (mem_sortedRots_length s hρ))]
      rfl)
  rw [hid, List.map_id]

theorem listIndex_lt_length {x : List Char} :
    ∀ {l : List (List Char)}, x ∈ l → listIndex x l < l.length := by
  intro l hx
  induction l with
  | nil => cases hx
  | cons y t ih =>
    by_cases hy : y = x
    · simp [listIndex, hy]
    · rcases List.mem_cons.mp hx with h | h
      · exact absurd h.symm hy
      · simp only [listIndex, if_neg hy, List.length_cons]
        exact Nat.succ_lt_succ (ih h)

theorem getD_listIndex {x : List Char} :
    ∀ {l : List (List Char)}, x ∈ l → l.getD (listIndex x l) [] = x := by
  intro l hx
  induction l with
  | nil => cases hx
  | cons y t ih =>
    by_cases hy : y = x
    · simp [listIndex, hy]
    · rcases List.mem_cons.mp hx with h | h
      · exact absurd h.symm hy
      · simp only [listIndex, if_neg hy]
        exact ih h

/-! ## Claim C2: BWT round trip -/

/-- C2 (confirmed): for every non-empty string `s`, `reverse_bwt` applied
to the `bwt_string` and `idx_original_string` returned by `bwt_transform s`
reconstructs `s` exactly. -/
theorem C2_bwt_roundtrip (s : List Char) (hs : s ≠ []) :
    ∃ r, bwt_transform s = Except.ok r ∧
      reverse_bwt r.bwt_string (r.idx_original_string : Int) =
        Except.ok s := by
  have hn := List.length_pos.mpr hs
  have hmem : s ∈ pySort (all_rotations s) := by
    apply (pySort_perm _).mem_iff.mpr
    rw [all_rotations_eq_map]
    exact List.mem_map.mpr ⟨0, List.mem_range.mpr hn, rot_zero s⟩
  have hRlen := sortedRots_length s
  have hidx : listIndex s (pySort (all_rotations s)) <
      (pySort (all_rotations s)).length :=
    listIndex_lt_length hmem
  refine ⟨⟨(pySort (all_rotations s)).map lastChar,
    listIndex s (pySort (all_rotations s))⟩, ?_, ?_⟩
  · unfold bwt_transform
    rw [if_neg hs]
  · show reverse_bwt ((pySort (all_rotations s)).map lastChar) _ =
      Except.ok s
    have hblen : ((pySort (all_rotations s)).map lastChar).length =
        s.length := by rw [List.length_map, hRlen]
    unfold reverse_bwt
    rw [if_neg (by
      intro h
      rw [h] at hblen
      simp only [List.length_nil] at hblen
      omega)]
    rw [if_neg (by
      rw [not_lt]
      exact Int.natCast_nonneg _)]
    rw [if_neg (by
      rw [not_le, hblen]
      exact_mod_cast (by omega : listIndex s (pySort (all_rotations s)) <
        s.length))]
    rw [hblen, bwt_reconstruction s hs, Int.toNat_natCast]
    rw [getD_listIndex hmem]

/-- Witness for C2 at `s = "ab"`. -/
theorem C2_bwt_roundtrip_witness :
    (['a', 'b'] : List Char) ≠ [] ∧
    ∃ r, bwt_transform ['a', 'b'] = Except.ok r ∧
      reverse_bwt r.bwt_string (r.idx_original_string : Int) =
        Except.ok ['a', 'b'] :=
  ⟨by decide, C2_bwt_roundtrip ['a', 'b'] (by decide)⟩

/-! ## Claim C7: `reverse_bwt` input validation -/

/-- C7 (confirmed): `reverse_bwt` fails (with a `ValueError`, the spec's
`InvalidInput`) exactly when the index is negative, or at least the length
of `bwt_string`, or `bwt_string` is empty; on those inputs no result
string is returned. -/
theorem C7_reverse_bwt_guards (bwt_string : List Char) (idx : Int) :
    (∃ e, reverse_bwt bwt_string idx = Except.error e) ↔
      (bwt_string = [] ∨ idx < 0 ∨ (bwt_string.length : Int) ≤ idx) := by
  unfold reverse_bwt
  split_ifs with h1 h2 h3 <;> simp_all

/-! ## Association-list (Python dict) lemmas -/

theorem mem_of_alookup {α β : Type} [DecidableEq α] :
    ∀ {l : List (α × β)} {k : α} {v : β},
      alookup l k = some v → (k, v) ∈ l := by
  intro l
  induction l with
  | nil => intro k v h; simp [alookup] at h
  | cons e t ih =>
    intro k v h
    obtain ⟨k', v'⟩ := e
    by_cases hk : k' = k
    · subst hk
      simp only [alookup, if_pos] at h
      rw [Option.some.injEq] at h
      subst h
      exact List.mem_cons_self _ _
    · simp only [alookup, if_neg hk] at h
      exact List.mem_cons_of_mem _ (ih h)

theorem alookup_mem_keys {α β : Type} [DecidableEq α] :
    ∀ {l : List (α × β)} {k : α}, k ∈ l.map Prod.fst →
      ∃ v, alookup l k = some v := by
  intro l
  induction l with
  | nil => intro k h; simp at h
  | cons e t ih =>
    intro k h
    obtain ⟨k', v'⟩ := e
    by_cases hk : k' = k
    · exact ⟨v', by simp [alookup, hk]⟩
    · simp only [List.map_cons, List.mem_cons] at h
      rcases h with h | h
      · exact absurd h.symm hk
      · obtain ⟨v, hv⟩ := ih h
        refine ⟨v, ?_⟩
        simp only [alookup, if_neg hk]
        exact hv

theorem return_key_of_mem :
    ∀ {l : List (String × List Bool)}, (l.map Prod.snd).Nodup →
      ∀ {k : String} {v : List Bool}, (k, v) ∈ l → return_key l v = k := by
  intro l
  induction l with
  | nil => intro _ k v h; cases h
  | cons e t ih =>
    intro hnd k v h
    obtain ⟨k', v'⟩ := e
    simp only [List.map_cons, List.nodup_cons] at hnd
    rcases List.mem_cons.mp h with h | h
    · rw [Prod.mk.injEq] at h
      obtain ⟨rfl, rfl⟩ := h
      simp [return_key]
    · by_cases hv : v' = v
      · subst hv
        exact absurd (List.mem_map.mpr ⟨(k, v'), h, rfl⟩) hnd.1
      · simp only [return_key, if_neg hv]
        exact ih hnd.2 h

theorem dinsert_fresh {α β : Type} [DecidableEq α] :
    ∀ {l : List (α × β)} {k : α} (v : β), k ∉ l.map Prod.fst →
      dinsert l k v = l ++ [(k, v)] := by
  intro l
  induction l with
  | nil => intro k v _; rfl
  | cons e t ih =>
    intro k v hk
    obtain ⟨k', v'⟩ := e
    simp only [List.map_cons, List.mem_cons] at hk
    push_neg at hk
    have hkk : ¬ (k' = k) := fun h => hk.1 h.symm
    simp only [dinsert, if_neg hkk]
    rw [ih v hk.2]
    exact (List.cons_append _ _ _).symm

theorem foldl_dinsert_fresh {α β : Type} [DecidableEq α] :
    ∀ (l acc : List (α × β)), ((acc ++ l).map Prod.fst).Nodup →
      l.foldl (fun d e => dinsert d e.1 e.2) acc = acc ++ l := by
  intro l
  induction l with
  | nil => intro acc _; simp
  | cons e t ih =>
    intro acc hnd
    obtain ⟨k, v⟩ := e
    have hk : k ∉ acc.map Prod.fst := by
      simp only [List.map_append, List.map_cons] at hnd
      rw [List.nodup_append] at hnd
      intro hmem
      exact hnd.2.2 hmem (List.mem_cons_self _ _)
    show t.foldl _ (dinsert acc k v) = _
    rw [dinsert_fresh v hk]
    rw [ih (acc ++ [(k, v)]) (by
      simp only [List.append_assoc, List.singleton_append]
      exact hnd)]
    simp

theorem dictOf_self {α β : Type} [DecidableEq α] (l : List (α × β))
    (h : (l.map Prod.fst).Nodup) : dictOf l = l := by
  unfold dictOf
  rw [foldl_dinsert_fresh l [] (by simpa using h)]
  rfl

/-! ## Frequency-table lemmas -/

theorem bump_keys (c : String) :
    ∀ (l : List (String × Nat)), (bump l c).map Prod.fst =
      if c ∈ l.map Prod.fst then l.map Prod.fst
      else l.map Prod.fst ++ [c] := by
  intro l
  induction l with
  | nil => simp [bump]
  | cons e t ih =>
    obtain ⟨k, n⟩ := e
    by_cases hk : k = c
    · subst hk
      simp [bump]
    · simp only [bump, if_neg hk, List.map_cons]
      rw [ih]
      split_ifs with h1 h2 h3 <;> simp_all

theorem bump_ne_nil (l : List (String × Nat)) (c : String) : bump l c ≠ [] := by
  match l with
  | [] => simp [bump]
  | (k, n) :: t =>
    simp only [bump]
    split <;> simp

theorem foldl_bump_ne_nil (l : List String) :
    ∀ acc : List (String × Nat), acc ≠ [] → l.foldl bump acc ≠ [] := by
  induction l with
  | nil => intro acc h; exact h
  | cons a t ih => intro acc _; exact ih (bump acc a) (bump_ne_nil acc a)

theorem tally_ne_nil (l : List String) (h : l ≠ []) : tally l ≠ [] := by
  match l with
  | a :: t =>
    show (t.foldl bump (bump [] a)) ≠ []
    exact foldl_bump_ne_nil t _ (bump_ne_nil [] a)

theorem tally_keys_aux (l : List String) :
    ∀ acc : List (String × Nat), (acc.map Prod.fst).Nodup →
      ((l.foldl bump acc).map Prod.fst).Nodup ∧
      (∀ x, x ∈ (l.foldl bump acc).map Prod.fst ↔
        x ∈ acc.map Prod.fst ∨ x ∈ l) := by
  induction l with
  | nil =>
    intro acc h
    exact ⟨h, by simp⟩
  | cons a t ih =>
    intro acc h
    simp only [List.foldl_cons]
    have hk := bump_keys a acc
    by_cases hmem : a ∈ acc.map Prod.fst
    · rw [if_pos hmem] at hk
      obtain ⟨h1, h2⟩ := ih (bump acc a) (by rw [hk]; exact h)
      refine ⟨h1, fun x => ?_⟩
      rw [h2 x, hk, List.mem_cons]
      constructor
      · rintro (h | h)
        · exact Or.inl h
        · exact Or.inr (Or.inr h)
      · rintro (h | h | h)
        · exact Or.inl h
        · exact Or.inl (h ▸ hmem)
        · exact Or.inr h
    · rw [if_neg hmem] at hk
      have hnd : ((bump acc a).map Prod.fst).Nodup := by
        rw [hk, List.nodup_append]
        refine ⟨h, List.nodup_singleton a, ?_⟩
        intro x hx hx'
        simp only [List.mem_singleton] at hx'
        exact hmem (hx' ▸ hx)
      obtain ⟨h1, h2⟩ := ih (bump acc a) hnd
      refine ⟨h1, fun x => ?_⟩
      rw [h2 x, hk, List.mem_append, List.mem_singleton, List.mem_cons]
      tauto

theorem tally_keys_nodup (l : List String) :
    ((tally l).map Prod.fst).Nodup :=
  (tally_keys_aux l [] (by simp)).1

theorem mem_tally_keys (l : List String) (x : String) :
    x ∈ (tally l).map Prod.fst ↔ x ∈ l := by
  have h := (tally_keys_aux l [] (by simp)).2 x
  simpa using h

/-! ## Merge-tree lemmas -/

theorem sortByFreq_perm (l : List HTree) : (sortByFreq l).Perm l :=
  List.perm_insertionSort _ _

theorem flatMap_letters_perm {l m : List HTree} (h : l.Perm m) :
    (l.flatMap HTree.letters).Perm (m.flatMap HTree.letters) := by
  rw [List.flatMap_def, List.flatMap_def]
  exact (h.map _).flatten

theorem flatMap_letters_leaves (l : List (String × Nat)) :
    ((l.map (fun e => HTree.leaf e.1 e.2)).flatMap HTree.letters) =
      l.map Prod.fst := by
  induction l with
  | nil => rfl
  | cons e t ih => simp [HTree.letters, ih]

theorem build_tree_go_spec :
    ∀ (fuel : Nat) (l : List HTree), l.length ≤ fuel → l ≠ [] →
      ∃ t, build_tree_go fuel l = [t] ∧
        t.letters.Perm (l.flatMap HTree.letters) := by
  intro fuel
  induction fuel with
  | zero =>
    intro l hl hne
    exact absurd (List.length_eq_zero.mp (by omega)) hne
  | succ fuel ih =>
    intro l hl hne
    match l with
    | [] => exact absurd rfl hne
    | [x] => exact ⟨x, rfl, by simp⟩
    | a :: b :: rest =>
      have hlen : (sortByFreq (rest ++
          [HTree.node (a.freq + b.freq) a b])).length ≤ fuel := by
        unfold sortByFreq
        rw [List.length_insertionSort]
        simp only [List.length_append, List.length_cons,
          List.length_nil] at hl ⊢
        omega
      have hne2 : sortByFreq (rest ++
          [HTree.node (a.freq + b.freq) a b]) ≠ [] := by
        intro h
        have hlen0 := congrArg List.length h
        unfold sortByFreq at hlen0
        rw [List.length_insertionSort] at hlen0
        simp at hlen0
      obtain ⟨t, ht, hp⟩ := ih _ hlen hne2
      refine ⟨t, ht, ?_⟩
      refine hp.trans ?_
      refine (flatMap_letters_perm (sortByFreq_perm _)).trans ?_
      rw [List.flatMap_append]
      simp only [List.flatMap_cons, List.flatMap_nil, List.append_nil,
        HTree.letters]
      refine List.perm_append_comm.trans ?_
      rw [List.append_assoc]

theorem build_tree_inv (letters : List HTree) (root : HTree)
    (h : build_tree letters = some root) :
    root.letters.Perm (letters.flatMap HTree.letters) := by
  have hne : letters ≠ [] := by
    rintro rfl
    simp [build_tree, build_tree_go] at h
  obtain ⟨t, ht, hp⟩ := build_tree_go_spec letters.length letters le_rfl hne
  unfold build_tree at h
  rw [ht] at h
  simp only [List.head?_cons, Option.some.injEq] at h
  subst h
  exact hp

theorem parse_file_letters (s : List String) :
    ((parse_file s).flatMap HTree.letters).Perm ((tally s).map Prod.fst) := by
  unfold parse_file
  refine (flatMap_letters_perm (sortByFreq_perm _)).trans ?_
  rw [flatMap_letters_leaves]

/-! ## Traversal lemmas -/

theorem traverse_tree_fst (t : HTree) :
    ∀ pre, (traverse_tree t pre).map Prod.fst = t.letters := by
  induction t with
  | leaf c f => intro pre; rfl
  | node f l r ihl ihr =>
    intro pre
    simp only [traverse_tree, List.map_append, ihl, ihr, HTree.letters]

theorem traverse_tree_snd_prefix (t : HTree) :
    ∀ pre, ∀ e ∈ traverse_tree t pre, pre <+: e.2 := by
  induction t with
  | leaf c f =>
    intro pre e he
    simp only [traverse_tree, List.mem_singleton] at he
    subst he
    exact List.prefix_refl _
  | node f l r ihl ihr =>
    intro pre e he
    rcases List.mem_append.mp he with h | h
    · exact (List.prefix_append pre [false]).trans (ihl _ e h)
    · exact (List.prefix_append pre [true]).trans (ihr _ e h)

theorem traverse_tree_pairwise (t : HTree) :
    ∀ pre, List.Pairwise (fun x y => ¬ x.2 <+: y.2 ∧ ¬ y.2 <+: x.2)
      (traverse_tree t pre) := by
  induction t with
  | leaf c f => intro pre; simp [traverse_tree]
  | node f l r ihl ihr =>
    intro pre
    show List.Pairwise _ (traverse_tree l (pre ++ [false]) ++
      traverse_tree r (pre ++ [true]))
    rw [List.pairwise_append]
    refine ⟨ihl _, ihr _, ?_⟩
    intro x hx y hy
    obtain ⟨sx, hsx⟩ := traverse_tree_snd_prefix l _ x hx
    obtain ⟨sy, hsy⟩ := traverse_tree_snd_prefix r _ y hy
    constructor
    · intro hp
      rw [← hsx, ← hsy, List.append_assoc, List.append_assoc,
        List.prefix_append_right_inj, List.singleton_append,
        List.singleton_append, List.cons_prefix_cons] at hp
      exact Bool.noConfusion hp.1
    · intro hp
      rw [← hsx, ← hsy, List.append_assoc, List.append_assoc,
        List.prefix_append_right_inj, List.singleton_append,
        List.singleton_append, List.cons_prefix_cons] at hp
      exact Bool.noConfusion hp.1

theorem traverse_tree_values_nodup (t : HTree) (pre : List Bool) :
    ((traverse_tree t pre).map Prod.snd).Nodup := by
  refine List.Pairwise.map _ ?_ (traverse_tree_pairwise t pre)
  intro a b hab heq
  exact hab.1 (heq ▸ List.prefix_refl _)

theorem foldl_bump_const (c : String) :
    ∀ (l : List String) (m : Nat), (∀ x ∈ l, x = c) →
      l.foldl bump [(c, m)] = [(c, m + l.length)] := by
  intro l
  induction l with
  | nil => intro m _; simp
  | cons a t ih =>
    intro m hc
    have ha : a = c := hc a (by simp)
    subst ha
    simp only [List.foldl_cons]
    rw [show bump [(a, m)] a = [(a, m + 1)] from by simp [bump]]
    rw [ih (m + 1) (fun x hx => hc x (by simp [hx]))]
    simp only [List.length_cons]
    rw [show m + 1 + t.length = m + (t.length + 1) from by omega]

theorem tally_const (l : List String) (c : String) (hne : l ≠ [])
    (hc : ∀ x ∈ l, x = c) : tally l = [(c, l.length)] := by
  match l with
  | a :: t =>
    have ha : a = c := hc a (by simp)
    subst ha
    show t.foldl bump (bump [] a) = _
    rw [show bump [] a = [(a, 1)] from rfl]
    rw [foldl_bump_const a t 1 (fun x hx => hc x (by simp [hx]))]
    simp only [List.length_cons]
    rw [show 1 + t.length = t.length + 1 from by omega]

/-! ## Huffman assembly lemmas -/

theorem huffman_encode_inv (s : List String) (h : HuffmanDict)
    (henc : huffman_encode s = some h) :
    ∃ root, build_tree (parse_file s) = some root ∧
      root.letters.Perm ((tally s).map Prod.fst) ∧
      ((traverse_tree root []).map Prod.fst).Nodup ∧
      h.Huf_letters = traverse_tree root [] ∧
      h.Huf_encode = s.map (fun c =>
        (alookup (traverse_tree root []) c).getD []) := by
  unfold huffman_encode at henc
  cases hbt : build_tree (parse_file s) with
  | none => rw [hbt] at henc; cases henc
  | some root =>
    rw [hbt] at henc
    simp only [Option.some.injEq] at henc
    have hlp : root.letters.Perm ((tally s).map Prod.fst) :=
      (build_tree_inv _ root hbt).trans (parse_file_letters s)
    have hknd : ((traverse_tree root []).map Prod.fst).Nodup := by
      rw [traverse_tree_fst]
      exact hlp.symm.nodup (tally_keys_nodup s)
    have hT := dictOf_self (traverse_tree root []) hknd
    refine ⟨root, rfl, hlp, hknd, ?_, ?_⟩
    · rw [← henc, hT]
    · rw [← henc, hT]

/-! ## Claim C3: Huffman round trip -/

/-- C3 (confirmed): for every non-empty list of symbols `s`,
`huffman_decode` applied to the result of `huffman_encode s` (the
per-symbol code list together with the code table built from `s`'s own
frequencies) returns `s`. -/
theorem C3_huffman_roundtrip (s : List String) (hs : s ≠ []) :
    ∃ h, huffman_encode s = some h ∧ huffman_decode h = s := by
  have hpfne : parse_file s ≠ [] := by
    unfold parse_file sortByFreq
    intro h0
    have hlen0 := congrArg List.length h0
    rw [List.length_insertionSort] at hlen0
    simp only [List.length_map, List.length_nil] at hlen0
    exact tally_ne_nil s hs (List.length_eq_zero.mp hlen0)
  obtain ⟨root0, hroot0, -⟩ :=
    build_tree_go_spec (parse_file s).length (parse_file s) le_rfl hpfne
  have hbt : build_tree (parse_file s) = some root0 := by
    unfold build_tree
    rw [hroot0]
    rfl
  have hsome : ∃ h, huffman_encode s = some h := by
    unfold huffman_encode
    rw [hbt]
    exact ⟨_, rfl⟩
  obtain ⟨h, henc⟩ := hsome
  obtain ⟨root, -, hlp, hknd, hlet, hencl⟩ := huffman_encode_inv s h henc
  refine ⟨h, henc, ?_⟩
  unfold huffman_decode
  rw [hlet, hencl, List.map_map]
  have hvnd := traverse_tree_values_nodup root []
  have hpointwise : ∀ c ∈ s,
      (return_key (traverse_tree root []) ∘ fun c =>
        (alookup (traverse_tree root []) c).getD []) c = c := by
    intro c hc
    have hck : c ∈ (traverse_tree root []).map Prod.fst := by
      rw [traverse_tree_fst]
      exact hlp.mem_iff.mpr ((mem_tally_keys s c).mpr hc)
    obtain ⟨v, hv⟩ := alookup_mem_keys hck
    have hmem := mem_of_alookup hv
    simp only [Function.comp_apply, hv, Option.getD_some]
    exact return_key_of_mem hvnd hmem
  rw [List.map_congr_left hpointwise, List.map_id']

/-- Witness for C3 at `s = ["a", "b", "a"]`. -/
theorem C3_huffman_roundtrip_witness :
    (["a", "b", "a"] : List String) ≠ [] ∧
    ∃ h, huffman_encode ["a", "b", "a"] = some h ∧
      huffman_decode h = ["a", "b", "a"] :=
  ⟨by decide, C3_huffman_roundtrip ["a", "b", "a"] (by decide)⟩

/-! ## Claim C4: the code table is prefix-free -/

/-- C4 (confirmed): any two distinct symbols of a code table produced by
`huffman_encode` carry codes of which neither is a prefix of the other. -/
theorem C4_huffman_prefix_free (s : List String) (h : HuffmanDict)
    (c₁ c₂ : String) (b₁ b₂ : List Bool)
    (henc : huffman_encode s = some h) (hcc : c₁ ≠ c₂)
    (h₁ : (c₁, b₁) ∈ h.Huf_letters) (h₂ : (c₂, b₂) ∈ h.Huf_letters) :
    ¬ b₁ <+: b₂ := by
  obtain ⟨root, -, -, -, hlet, -⟩ := huffman_encode_inv s h henc
  rw [hlet] at h₁ h₂
  have hsym : Symmetric (fun (x y : String × List Bool) =>
      ¬ x.2 <+: y.2 ∧ ¬ y.2 <+: x.2) := by
    intro x y hxy
    exact ⟨hxy.2, hxy.1⟩
  have hne : ((c₁, b₁) : String × List Bool) ≠ (c₂, b₂) := by
    intro h0
    exact hcc (congrArg Prod.fst h0)
  exact (List.Pairwise.forall hsym (traverse_tree_pairwise root [])
    h₁ h₂ hne).1

/-- Witness for C4: in the table for `["a", "b"]` the code of `"a"` is
not a prefix of the code of `"b"`. -/
theorem C4_huffman_prefix_free_witness :
    ¬ ([false] : List Bool) <+: [true] :=
  C4_huffman_prefix_free ["a", "b"]
    ⟨[[false], [true]], [("a", [false]), ("b", [true])]⟩
    "a" "b" [false] [true] (by decide) (by decide) (by decide) (by decide)

/-! ## Claim C5: decoding an unknown code -/

/-- C5, as stated, is false: on a code absent from the table,
`huffman_decode` does not fail with an `UnknownCode` error — `return_key`
silently returns the sentinel string `"Key Not Found"`, which appears in
the decoded output as a substitute symbol. -/
theorem C5_counterexample :
    huffman_decode { Huf_encode := [[true]],
                     Huf_letters := [("a", [false])] } = ["Key Not Found"] ∧
    ("Key Not Found" : String) ≠ "a" := by decide

/-- C5 (amended): whenever a code matches no table entry, `return_key`
returns the sentinel string `"Key Not Found"` (and `huffman_decode`
therefore emits that string as the decoded symbol); no error is raised
and no lookup failure is signalled. -/
theorem C5_unknown_code (huf_letters : List (String × List Bool))
    (item : List Bool) (h : ∀ e ∈ huf_letters, e.2 ≠ item) :
    return_key huf_letters item = "Key Not Found" := by
  induction huf_letters with
  | nil => rfl
  | cons e t ih =>
    obtain ⟨k, v⟩ := e
    simp only [return_key, if_neg (h (k, v) (List.mem_cons_self _ _))]
    exact ih (fun e he => h e (List.mem_cons_of_mem _ he))

/-- Witness for C5 on the one-entry table `{"a": "0"}` and the unknown
code `"1"`. -/
theorem C5_unknown_code_witness :
    return_key [("a", [false])] [true] = "Key Not Found" :=
  C5_unknown_code [("a", [false])] [true] (by decide)

/-! ## Claim C6: single distinct symbol -/

/-- C6, as stated, is false: for the single-symbol input `["a"]` the sole
symbol is assigned the empty code `""`, not `"0"`. -/
theorem C6_counterexample :
    huffman_encode ["a"] =
      some { Huf_encode := [[]], Huf_letters := [("a", [])] } ∧
    ([] : List Bool) ≠ [false] := by decide

/-- C6 (amended): for every non-empty input list whose symbols are all
equal, `huffman_encode` yields a one-entry code table in which the sole
symbol is assigned the empty code `""` (the depth-zero traversal of the
single-leaf tree), and encode/decode round-trips correctly on that
input. -/
theorem C6_single_symbol (l : List String) (c : String) (hne : l ≠ [])
    (hc : ∀ x ∈ l, x = c) :
    huffman_encode l =
      some { Huf_encode := List.replicate l.length [],
             Huf_letters := [(c, [])] } ∧
    huffman_decode { Huf_encode := List.replicate l.length [],
                     Huf_letters := [(c, [])] } = l := by
  have htally : tally l = [(c, l.length)] := tally_const l c hne hc
  have hparse : parse_file l = [HTree.leaf c l.length] := by
    unfold parse_file
    rw [htally]
    rfl
  have hbt : build_tree (parse_file l) = some (HTree.leaf c l.length) := by
    rw [hparse]
    rfl
  constructor
  · unfold huffman_encode
    rw [hbt]
    simp only [Option.some.injEq]
    have hstep : ∀ x ∈ l,
        (alookup (dictOf (traverse_tree (HTree.leaf c l.length) [])) x).getD
          [] = ([] : List Bool) := by
      intro x hx
      rw [hc x hx]
      show (alookup (dictOf [(c, ([] : List Bool))]) c).getD [] = []
      rw [show dictOf [(c, ([] : List Bool))] = [(c, [])] from rfl]
      simp [alookup]
    have henc1 : l.map (fun x =>
        (alookup (dictOf (traverse_tree (HTree.leaf c l.length) [])) x).getD
          []) = List.replicate l.length ([] : List Bool) := by
      rw [List.map_congr_left hstep]
      exact List.map_const' l []
    rw [henc1]
    rfl
  · unfold huffman_decode
    simp only [List.map_replicate]
    rw [show return_key [(c, [])] [] = c from by simp [return_key]]
    exact (List.eq_replicate_of_mem hc).symm

/-- Witness for C6 at the input `["a", "a"]`. -/
theorem C6_single_symbol_witness :
    huffman_encode ["a", "a"] =
      some { Huf_encode := List.replicate (["a", "a"] : List String).length [],
             Huf_letters := [("a", [])] } ∧
    huffman_decode { Huf_encode :=
                       List.replicate (["a", "a"] : List String).length [],
                     Huf_letters := [("a", [])] } = ["a", "a"] :=
  C6_single_symbol ["a", "a"] "a" (by decide) (by decide)

/-! ## Binary-representation lemmas for the LZW invariant -/

theorem natBits_length_pos (n : Nat) : 1 ≤ (natBits n).length :=
  List.length_pos.mpr (natBits_ne_nil n)

theorem natBits_length_div2 (n : Nat) (hn : 2 ≤ n) :
    (natBits n).length = (natBits (n / 2)).length + 1 := by
  match n, hn with
  | m + 2, _ =>
    rw [natBits_two_add]
    simp

theorem natBits_length_mono : ∀ (n m : Nat), m ≤ n →
    (natBits m).length ≤ (natBits n).length := by
  intro n
  induction n using Nat.strong_induction_on with
  | _ n ih =>
    intro m hmn
    by_cases hn : n ≤ 1
    · interval_cases n <;> interval_cases m <;> simp [natBits, natBitsGo]
    · push_neg at hn
      by_cases hm : m ≤ 1
      · have h1 : (natBits m).length = 1 := by interval_cases m <;> rfl
        rw [h1]
        exact natBits_length_pos n
      · push_neg at hm
        rw [natBits_length_div2 m (by omega), natBits_length_div2 n (by omega)]
        exact Nat.succ_le_succ (ih (n / 2) (by omega) (m / 2) (by omega))

theorem isPow2_div2 (n : Nat) (hn : 2 ≤ n) :
    isPow2 n = (decide (n % 2 = 0) && isPow2 (n / 2)) := by
  match n, hn with
  | m + 2, _ => exact isPow2_two_add m

theorem natBits_length_succ_eq : ∀ n, 2 ≤ n →
    (natBits n).length = (natBits (n - 1)).length +
      (if isPow2 n = true then 1 else 0) := by
  intro n
  induction n using Nat.strong_induction_on with
  | _ n ih =>
    intro hn
    rcases Nat.lt_or_ge n 4 with h4 | h4
    · interval_cases n <;> decide
    · by_cases hpar : n % 2 = 0
      · have h1 : (natBits n).length = (natBits (n / 2)).length + 1 :=
          natBits_length_div2 n (by omega)
        have h2 : (natBits (n - 1)).length =
            (natBits ((n - 1) / 2)).length + 1 :=
          natBits_length_div2 (n - 1) (by omega)
        have h3 : (n - 1) / 2 = n / 2 - 1 := by omega
        have h5 : isPow2 n = isPow2 (n / 2) := by
          rw [isPow2_div2 n (by omega)]
          simp [hpar]
        have hih := ih (n / 2) (by omega) (by omega)
        rw [h1, h2, h3, h5, hih]
        split_ifs <;> omega
      · have hodd : isPow2 n = false := by
          rw [isPow2_div2 n (by omega)]
          simp [hpar]
        have h1 := natBits_length_div2 n (by omega)
        have h2 := natBits_length_div2 (n - 1) (by omega)
        have h3 : (n - 1) / 2 = n / 2 := by omega
        rw [hodd, h1, h2, h3]
        simp

theorem bitsToNat_concat (l : List Bool) (b : Bool) :
    bitsToNat (l ++ [b]) = 2 * bitsToNat l + (if b then 1 else 0) := by
  unfold bitsToNat
  rw [List.foldl_append]
  rfl

theorem bitsToNat_natBits : ∀ n, bitsToNat (natBits n) = n := by
  intro n
  induction n using Nat.strong_induction_on with
  | _ n ih =>
    match n with
    | 0 => rfl
    | 1 => rfl
    | m + 2 =>
      rw [natBits_two_add, bitsToNat_concat, ih ((m + 2) / 2) (by omega)]
      by_cases hp : (m + 2) % 2 = 1
      · rw [if_pos (by simp only [decide_eq_true_eq]; omega)]
        omega
      · rw [if_neg (by simp only [decide_eq_true_eq]; omega)]
        omega

theorem natBits_inj {m n : Nat} (h : natBits m = natBits n) : m = n := by
  have hm := bitsToNat_natBits m
  rw [h, bitsToNat_natBits] at hm
  omega

/-! ## Padded-code lemmas -/

theorem padWidth_length {w n : Nat} (h : (natBits n).length ≤ w) :
    (padWidth w n).length = w := by
  unfold padWidth
  simp only [List.length_append, List.length_replicate]
  omega

theorem padWidth_eq_natBits {w n : Nat} (h : (natBits n).length = w) :
    padWidth w n = natBits n := by
  unfold padWidth
  rw [h, Nat.sub_self]
  rfl

theorem cons_false_padWidth {w n : Nat} (h : (natBits n).length ≤ w) :
    false :: padWidth w n = padWidth (w + 1) n := by
  unfold padWidth
  rw [show w + 1 - (natBits n).length =
    (w - (natBits n).length) + 1 from by omega]
  rw [List.replicate_succ]
  rfl

theorem padWidth_zero_eq {w : Nat} (h : 1 ≤ w) :
    padWidth w 0 = List.replicate w false := by
  show List.replicate (w - (natBits 0).length) false ++ natBits 0 = _
  rw [show natBits 0 = List.replicate 1 false from rfl]
  rw [← List.replicate_add]
  congr 1
  simp only [List.length_replicate]
  omega

theorem padWidth_inj {w : Nat} : ∀ {j₁ j₂ : Nat},
    (natBits j₁).length ≤ w → (natBits j₂).length ≤ w →
    padWidth w j₁ = padWidth w j₂ → j₁ = j₂ := by
  have hmem : ∀ j : Nat, 1 ≤ j → true ∈ padWidth w j := by
    intro j hj
    obtain ⟨tl, htl⟩ := natBits_head j hj
    unfold padWidth
    rw [htl]
    simp
  intro j₁ j₂ h1 h2 heq
  match j₁, j₂ with
  | 0, 0 => rfl
  | 0, j₂ + 1 =>
    exfalso
    have hm := hmem (j₂ + 1) (by omega)
    rw [← heq, padWidth_zero_eq (le_trans (natBits_length_pos 0) h1)] at hm
    exact Bool.noConfusion (List.eq_of_mem_replicate hm)
  | j₁ + 1, 0 =>
    exfalso
    have hm := hmem (j₁ + 1) (by omega)
    rw [heq, padWidth_zero_eq (le_trans (natBits_length_pos 0) h2)] at hm
    exact Bool.noConfusion (List.eq_of_mem_replicate hm)
  | j₁ + 1, j₂ + 1 =>
    obtain ⟨t₁, ht₁⟩ := natBits_head (j₁ + 1) (by omega)
    obtain ⟨t₂, ht₂⟩ := natBits_head (j₂ + 1) (by omega)
    have e1 : (padWidth w (j₁ + 1)).takeWhile (fun b => !b) =
        List.replicate (w - (natBits (j₁ + 1)).length) false := by
      unfold padWidth
      rw [ht₁]
      exact takeWhile_replicate_false _ _
    have e2 : (padWidth w (j₂ + 1)).takeWhile (fun b => !b) =
        List.replicate (w - (natBits (j₂ + 1)).length) false := by
      unfold padWidth
      rw [ht₂]
      exact takeWhile_replicate_false _ _
    have hcount := congrArg
      (fun l : List Bool => (l.takeWhile (fun b => !b)).length) heq
    simp only [e1, e2, List.length_replicate] at hcount
    have hnb : natBits (j₁ + 1) = natBits (j₂ + 1) := by
      have hrep : (List.replicate (w - (natBits (j₁ + 1)).length)
          (false : Bool)).length =
          (List.replicate (w - (natBits (j₂ + 1)).length)
            (false : Bool)).length := by
        simp only [List.length_replicate]
        omega
      exact List.append_inj_right heq hrep
    exact natBits_inj hnb

/-! ## More dict lemmas (pop / replace) -/

theorem dpop_sublist {α β : Type} [DecidableEq α] :
    ∀ (l : List (α × β)) (k : α), (dpop l k).Sublist l := by
  intro l k
  induction l with
  | nil => exact List.Sublist.refl _
  | cons e t ih =>
    obtain ⟨k', v'⟩ := e
    by_cases h : k' = k
    · simp only [dpop, if_pos h]
      exact List.sublist_cons_self _ _
    · simp only [dpop, if_neg h]
      exact ih.cons₂ _

theorem mem_dpop {α β : Type} [DecidableEq α] :
    ∀ {l : List (α × β)}, (l.map Prod.fst).Nodup → ∀ {k : α} {x : α × β},
      (x ∈ dpop l k ↔ x ∈ l ∧ x.1 ≠ k) := by
  intro l
  induction l with
  | nil => intro _ k x; simp [dpop]
  | cons e t ih =>
    intro hnd k x
    obtain ⟨k', v'⟩ := e
    simp only [List.map_cons, List.nodup_cons] at hnd
    by_cases h : k' = k
    · subst h
      simp only [dpop, if_pos rfl]
      constructor
      · intro hx
        refine ⟨List.mem_cons_of_mem _ hx, ?_⟩
        intro hxk
        exact hnd.1 (List.mem_map.mpr ⟨x, hx, hxk⟩)
      · rintro ⟨hx, hxk⟩
        rcases List.mem_cons.mp hx with h | h
        · exact absurd (congrArg Prod.fst h) hxk
        · exact h
    · simp only [dpop, if_neg h, List.mem_cons]
      rw [ih hnd.2]
      constructor
      · rintro (rfl | ⟨hx, hxk⟩)
        · exact ⟨Or.inl rfl, h⟩
        · exact ⟨Or.inr hx, hxk⟩
      · rintro ⟨rfl | hx, hxk⟩
        · exact Or.inl rfl
        · exact Or.inr ⟨hx, hxk⟩

theorem dpop_perm {α β : Type} [DecidableEq α] :
    ∀ {l : List (α × β)}, (l.map Prod.fst).Nodup → ∀ {k : α} {v : β},
      (k, v) ∈ l → l.Perm ((k, v) :: dpop l k) := by
  intro l
  induction l with
  | nil => intro _ k v h; cases h
  | cons e t ih =>
    intro hnd k v hm
    obtain ⟨k', v'⟩ := e
    simp only [List.map_cons, List.nodup_cons] at hnd
    by_cases h : k' = k
    · subst h
      simp only [dpop, eq_self_iff_true, if_true]
      rcases List.mem_cons.mp hm with hh | hh
      · rw [hh]
      · exact absurd (List.mem_map.mpr ⟨(k', v), hh, rfl⟩) hnd.1
    · simp only [dpop, if_neg h]
      rcases List.mem_cons.mp hm with hh | hh
      · exact absurd (congrArg Prod.fst hh.symm) h
      · exact ((ih hnd.2 hh).cons _).trans (List.Perm.swap _ _ _)

theorem mem_dinsert_replace {α β : Type} [DecidableEq α] :
    ∀ {l : List (α × β)}, (l.map Prod.fst).Nodup → ∀ {k : α} {v₀ : β},
      (k, v₀) ∈ l → ∀ (v : β) (x : α × β),
      (x ∈ dinsert l k v ↔ (x ∈ l ∧ x.1 ≠ k) ∨ x = (k, v)) := by
  intro l
  induction l with
  | nil => intro _ k v₀ h; cases h
  | cons e t ih =>
    intro hnd k v₀ hm v x
    obtain ⟨k', v'⟩ := e
    simp only [List.map_cons, List.nodup_cons] at hnd
    by_cases h : k' = k
    · subst h
      simp only [dinsert, eq_self_iff_true, if_true, List.mem_cons]
      constructor
      · rintro (hx | hx)
        · exact Or.inr hx
        · refine Or.inl ⟨Or.inr hx, ?_⟩
          intro hxk
          exact hnd.1 (List.mem_map.mpr ⟨x, hx, hxk⟩)
      · rintro (⟨hx | hx, hxk⟩ | hx)
        · exact absurd (congrArg Prod.fst hx) hxk
        · exact Or.inr hx
        · exact Or.inl hx
    · simp only [dinsert, if_neg h, List.mem_cons]
      rcases List.mem_cons.mp hm with hh | hh
      · exact absurd (congrArg Prod.fst hh.symm) h
      · rw [ih hnd.2 hh v x]
        constructor
        · rintro (hx | ⟨hx, hxk⟩ | hx)
          · refine Or.inl ⟨Or.inl hx, ?_⟩
            rw [hx]
            exact h
          · exact Or.inl ⟨Or.inr hx, hxk⟩
          · exact Or.inr hx
        · rintro (⟨hx | hx, hxk⟩ | hx)
          · exact Or.inl hx
          · exact Or.inr (Or.inl ⟨hx, hxk⟩)
          · exact Or.inr (Or.inr hx)

theorem keys_dinsert_replace {α β : Type} [DecidableEq α] :
    ∀ {l : List (α × β)} {k : α}, k ∈ l.map Prod.fst → ∀ (v : β),
      (dinsert l k v).map Prod.fst = l.map Prod.fst := by
  intro l
  induction l with
  | nil => intro k h; simp at h
  | cons e t ih =>
    intro k hk v
    obtain ⟨k', v'⟩ := e
    by_cases h : k' = k
    · simp [dinsert, if_pos h]
    · simp only [dinsert, if_neg h, List.map_cons]
      simp only [List.map_cons, List.mem_cons] at hk
      rcases hk with hk | hk
      · exact absurd hk.symm h
      · rw [ih hk v]

theorem alookup_eq_none {α β : Type} [DecidableEq α] :
    ∀ {l : List (α × β)} {k : α},
      (alookup l k = none ↔ k ∉ l.map Prod.fst) := by
  intro l
  induction l with
  | nil => intro k; simp [alookup]
  | cons e t ih =>
    intro k
    obtain ⟨k', v'⟩ := e
    by_cases h : k' = k
    · simp [alookup, if_pos h, h]
    · simp only [alookup, if_neg h, List.map_cons, List.mem_cons]
      rw [ih]
      constructor
      · rintro hk (rfl | hm)
        · exact h rfl
        · exact hk hm
      · intro hk hm
        exact hk (Or.inr hm)

theorem alookup_of_mem {α β : Type} [DecidableEq α] :
    ∀ {l : List (α × β)}, (l.map Prod.fst).Nodup →
      ∀ {k : α} {v : β}, (k, v) ∈ l → alookup l k = some v := by
  intro l
  induction l with
  | nil => intro _ k v h; simp at h
  | cons e t ih =>
    intro hnd k v h
    obtain ⟨k', v'⟩ := e
    simp only [List.map_cons, List.nodup_cons] at hnd
    rcases List.mem_cons.mp h with h | h
    · rw [(Prod.mk.injEq _ _ _ _).mp h.symm |>.1,
        (Prod.mk.injEq _ _ _ _).mp h.symm |>.2]
      simp [alookup]
    · have hk : k' ≠ k := by
        intro hkk
        subst hkk
        exact hnd.1 (List.mem_map.mpr ⟨(k', v), h, rfl⟩)
      simp only [alookup, if_neg hk]
      exact ih hnd.2 h

theorem length_le_maxKeyLen :
    ∀ (l : List (List Bool × List Bool)) (k : List Bool),
      k ∈ l.map Prod.fst → k.length ≤ maxKeyLen l := by
  intro l
  induction l with
  | nil => intro k h; simp at h
  | cons e t ih =>
    intro k hk
    simp only [List.map_cons, List.mem_cons] at hk
    show k.length ≤ max e.1.length (maxKeyLen t)
    rcases hk with rfl | hk
    · exact le_max_left _ _
    · exact le_trans (ih k hk) (le_max_right _ _)

/-! ## Scan-phase lemmas -/

theorem compress_scan_nomatch :
    ∀ (u : List Bool) (lex : List (List Bool × List Bool)) (i : Nat)
      (res c₀ : List Bool),
      (∀ v, v ≠ [] → v <+: u → alookup lex (c₀ ++ v) = none) →
      u.foldl compress_step ⟨lex, i, c₀, res⟩ = ⟨lex, i, c₀ ++ u, res⟩ := by
  intro u
  induction u with
  | nil => intro lex i res c₀ _; simp
  | cons b u ih =>
    intro lex i res c₀ hnone
    simp only [List.foldl_cons]
    have hb : alookup lex (c₀ ++ [b]) = none :=
      hnone [b] (by simp) ⟨u, rfl⟩
    rw [show compress_step ⟨lex, i, c₀, res⟩ b =
        ⟨lex, i, c₀ ++ [b], res⟩ from by
      simp only [compress_step, hb]]
    rw [ih lex i res (c₀ ++ [b]) (by
      intro v hv hvu
      rw [List.append_assoc]
      exact hnone ([b] ++ v) (by simp)
        ((List.cons_prefix_cons).mpr ⟨rfl, hvu⟩))]
    rw [List.append_assoc]
    rfl

theorem compress_scan_match (p rest : List Bool)
    (lex : List (List Bool × List Bool)) (i : Nat) (res c : List Bool)
    (hpne : p ≠ [])
    (hp : alookup lex p = some c)
    (hpre : ∀ v, v ≠ [] → v <+: p → v ≠ p → alookup lex v = none) :
    (p ++ rest).foldl compress_step ⟨lex, i, [], res⟩ =
      rest.foldl compress_step
        ⟨add_key_to_lexicon lex p i c, i + 1, [], res ++ c⟩ := by
  obtain ⟨p', b, rfl⟩ : ∃ p' b, p = p' ++ [b] := by
    rcases List.eq_nil_or_concat p with h | ⟨p', b, h⟩
    · exact absurd h hpne
    · exact ⟨p', b, by simpa using h⟩
  have h1 : p'.foldl compress_step ⟨lex, i, [], res⟩ = ⟨lex, i, p', res⟩ := by
    have hcall := compress_scan_nomatch p' lex i res [] (by
      intro v hv hvp
      refine hpre v hv (hvp.trans ⟨[b], rfl⟩) ?_
      intro hveq
      have hle := hvp.length_le
      rw [hveq] at hle
      simp only [List.length_append, List.length_cons,
        List.length_nil] at hle
      omega)
    simpa using hcall
  have h2 : compress_step ⟨lex, i, p', res⟩ b =
      ⟨add_key_to_lexicon lex (p' ++ [b]) i c, i + 1, [], res ++ c⟩ := by
    simp only [compress_step, hp]
  rw [List.foldl_append, List.foldl_append, h1]
  simp only [List.foldl_cons, List.foldl_nil]
  rw [h2]

theorem decompress_scan_nomatch :
    ∀ (u : List Bool) (lex : List (List Bool × List Bool)) (i : Nat)
      (res c₀ : List Bool),
      (∀ v, v ≠ [] → v <+: u → alookup lex (c₀ ++ v) = none) →
      u.foldl decompress_step ⟨lex, i, c₀, res⟩ = ⟨lex, i, c₀ ++ u, res⟩ := by
  intro u
  induction u with
  | nil => intro lex i res c₀ _; simp
  | cons b u ih =>
    intro lex i res c₀ hnone
    simp only [List.foldl_cons]
    have hb : alookup lex (c₀ ++ [b]) = none :=
      hnone [b] (by simp) ⟨u, rfl⟩
    rw [show decompress_step ⟨lex, i, c₀, res⟩ b =
        ⟨lex, i, c₀ ++ [b], res⟩ from by
      simp only [decompress_step, hb]]
    rw [ih lex i res (c₀ ++ [b]) (by
      intro v hv hvu
      rw [List.append_assoc]
      exact hnone ([b] ++ v) (by simp)
        ((List.cons_prefix_cons).mpr ⟨rfl, hvu⟩))]
    rw [List.append_assoc]
    rfl

theorem decompress_scan_match (p rest : List Bool)
    (lex : List (List Bool × List Bool)) (i : Nat) (res c : List Bool)
    (hpne : p ≠ [])
    (hp : alookup lex p = some c)
    (hpre : ∀ v, v ≠ [] → v <+: p → v ≠ p → alookup lex v = none) :
    (p ++ rest).foldl decompress_step ⟨lex, i, [], res⟩ =
      rest.foldl decompress_step
        ⟨decompress_update lex p i c, i + 1, [], res ++ c⟩ := by
  obtain ⟨p', b, rfl⟩ : ∃ p' b, p = p' ++ [b] := by
    rcases List.eq_nil_or_concat p with h | ⟨p', b, h⟩
    · exact absurd h hpne
    · exact ⟨p', b, by simpa using h⟩
  have h1 : p'.foldl decompress_step ⟨lex, i, [], res⟩ =
      ⟨lex, i, p', res⟩ := by
    have hcall := decompress_scan_nomatch p' lex i res [] (by
      intro v hv hvp
      refine hpre v hv (hvp.trans ⟨[b], rfl⟩) ?_
      intro hveq
      have hle := hvp.length_le
      rw [hveq] at hle
      simp only [List.length_append, List.length_cons,
        List.length_nil] at hle
      omega)
    simpa using hcall
  have h2 : decompress_step ⟨lex, i, p', res⟩ b =
      ⟨decompress_update lex (p' ++ [b]) i c, i + 1, [], res ++ c⟩ := by
    simp only [decompress_step, hp]
  rw [List.foldl_append, List.foldl_append, h1]
  simp only [List.foldl_cons, List.foldl_nil]
  rw [h2]

/-! ## Consequences of the lexicon invariant -/

theorem not_prefix_symm :
    Symmetric (fun k₁ k₂ : List Bool => ¬ k₁ <+: k₂ ∧ ¬ k₂ <+: k₁) :=
  fun _ _ h => ⟨h.2, h.1⟩

theorem inv_value_shape {clex dlex : List (List Bool × List Bool)}
    {index : Nat} (hinv : LZWInv clex dlex index) {c : List Bool}
    (hc : c ∈ clex.map Prod.snd) :
    ∃ j, j < index ∧ c = padWidth (natBits (index - 1)).length j := by
  obtain ⟨j, hj, hje⟩ := List.mem_map.mp (hinv.dense.mem_iff.mp hc)
  exact ⟨j, List.mem_range.mp hj, hje.symm⟩

theorem natBits_le_of_lt {j index : Nat} (hj : j < index) :
    (natBits j).length ≤ (natBits (index - 1)).length :=
  natBits_length_mono (index - 1) j (by omega)

theorem inv_value_length {clex dlex : List (List Bool × List Bool)}
    {index : Nat} (hinv : LZWInv clex dlex index) {c : List Bool}
    (hc : c ∈ clex.map Prod.snd) :
    c.length = (natBits (index - 1)).length := by
  obtain ⟨j, hj, hje⟩ := inv_value_shape hinv hc
  rw [hje]
  exact padWidth_length (natBits_le_of_lt hj)

theorem inv_values_nodup {clex dlex : List (List Bool × List Bool)}
    {index : Nat} (hinv : LZWInv clex dlex index) :
    (clex.map Prod.snd).Nodup := by
  refine hinv.dense.symm.nodup ?_
  refine List.Nodup.map_on ?_ (List.nodup_range index)
  intro x hx y hy hxy
  exact padWidth_inj (natBits_le_of_lt (List.mem_range.mp hx))
    (natBits_le_of_lt (List.mem_range.mp hy)) hxy

theorem inv_dlex_keys_iff {clex dlex : List (List Bool × List Bool)}
    {index : Nat} (hinv : LZWInv clex dlex index) (k : List Bool) :
    k ∈ dlex.map Prod.fst ↔ k ∈ clex.map Prod.snd := by
  constructor
  · intro h
    obtain ⟨e, hm, he⟩ := List.mem_map.mp h
    have hc : (e.2, e.1) ∈ clex := by
      refine (hinv.swap (e.2, e.1)).mpr ?_
      show (e.1, e.2) ∈ dlex
      rw [show ((e.1, e.2) : List Bool × List Bool) = e from rfl]
      exact hm
    exact List.mem_map.mpr ⟨(e.2, e.1), hc, he⟩
  · intro h
    obtain ⟨e, hm, he⟩ := List.mem_map.mp h
    exact List.mem_map.mpr ⟨(e.2, e.1), (hinv.swap e).mp hm, he⟩

theorem inv_key_extension_fresh {clex dlex : List (List Bool × List Bool)}
    {index : Nat} (hinv : LZWInv clex dlex index) {p : List Bool}
    (hp : p ∈ clex.map Prod.fst) (b : Bool) :
    p ++ [b] ∉ clex.map Prod.fst := by
  intro hmem
  have hne : p ≠ p ++ [b] := by simp
  exact (List.Pairwise.forall not_prefix_symm hinv.pf hp hmem hne).1
    (List.prefix_append p [b])

theorem inv_natBits_fresh {clex dlex : List (List Bool × List Bool)}
    {index : Nat} (hinv : LZWInv clex dlex index) :
    natBits index ∉ clex.map Prod.snd := by
  intro hmem
  obtain ⟨j, hj, hje⟩ := inv_value_shape hinv hmem
  obtain ⟨tl, htl⟩ := natBits_head index (by have := hinv.hidx; omega)
  unfold padWidth at hje
  rcases Nat.eq_zero_or_pos
      ((natBits (index - 1)).length - (natBits j).length) with hz | hz
  · rw [hz] at hje
    simp only [List.replicate, List.nil_append] at hje
    exact absurd (natBits_inj hje) (by omega)
  · obtain ⟨m, hm⟩ : ∃ m, (natBits (index - 1)).length -
        (natBits j).length = m + 1 :=
      ⟨(natBits (index - 1)).length - (natBits j).length - 1, by omega⟩
    rw [hm, List.replicate_succ, htl] at hje
    exact Bool.noConfusion (List.head_eq_of_cons_eq hje)

/-! ## Swap-correspondence helpers -/

theorem swap_iff_map {L M : List (List Bool × List Bool)}
    (hLM : ∀ y, y ∈ L ↔ (y.2, y.1) ∈ M) (x : List Bool × List Bool) :
    x ∈ L.map (fun e => (e.1, false :: e.2)) ↔
      (x.2, x.1) ∈ M.map (fun e => (false :: e.1, e.2)) := by
  rw [List.mem_map, List.mem_map]
  constructor
  · rintro ⟨y, hy, hgy⟩
    refine ⟨(y.2, y.1), (hLM y).mp hy, ?_⟩
    rw [← hgy]
  · rintro ⟨z, hz, hhz⟩
    refine ⟨(z.2, z.1), (hLM (z.2, z.1)).mpr (by
      show (z.1, z.2) ∈ M
      rw [show ((z.1, z.2) : List Bool × List Bool) = z from rfl]
      exact hz), ?_⟩
    have h1 : x.2 = false :: z.1 := (congrArg Prod.fst hhz).symm
    have h2 : x.1 = z.2 := (congrArg Prod.snd hhz).symm
    show ((z.2, z.1).1, false :: (z.2, z.1).2) = x
    exact Prod.ext h2.symm h1.symm

theorem swap_iff_append {L M : List (List Bool × List Bool)}
    (hLM : ∀ y, y ∈ L ↔ (y.2, y.1) ∈ M) (k v : List Bool)
    (x : List Bool × List Bool) :
    x ∈ L ++ [(k, v)] ↔ (x.2, x.1) ∈ M ++ [(v, k)] := by
  rw [List.mem_append, List.mem_append, List.mem_singleton,
    List.mem_singleton, hLM x]
  constructor
  · rintro (h | h)
    · exact Or.inl h
    · refine Or.inr ?_
      rw [h]
  · rintro (h | h)
    · exact Or.inl h
    · refine Or.inr ?_
      have h1 : x.2 = v := congrArg Prod.fst h
      have h2 : x.1 = k := congrArg Prod.snd h
      exact Prod.ext h2 h1

/-! ## Widening keeps the other component -/

theorem map_fst_widenV (l : List (List Bool × List Bool)) :
    (l.map (fun e => (e.1, false :: e.2))).map Prod.fst = l.map Prod.fst := by
  rw [List.map_map]
  rfl

theorem map_snd_widenV (l : List (List Bool × List Bool)) :
    (l.map (fun e => (e.1, false :: e.2))).map Prod.snd =
      (l.map Prod.snd).map (fun v => false :: v) := by
  rw [List.map_map, List.map_map]
  rfl

theorem map_fst_widenK (l : List (List Bool × List Bool)) :
    (l.map (fun e => (false :: e.1, e.2))).map Prod.fst =
      (l.map Prod.fst).map (fun k => false :: k) := by
  rw [List.map_map, List.map_map]
  rfl

/-! ## The coupled update step preserves the invariant -/

theorem lzw_step {clex dlex : List (List Bool × List Bool)} {index : Nat}
    {p c : List Bool} (hinv : LZWInv clex dlex index)
    (hmem : (p, c) ∈ clex) :
    LZWInv (add_key_to_lexicon clex p index c)
      (decompress_update dlex c index p) (index + 1) := by
  have hp_key : p ∈ clex.map Prod.fst := List.mem_map.mpr ⟨(p, c), hmem, rfl⟩
  have hpne : p ≠ [] := hinv.knonempty (p, c) hmem
  have hdmem : (c, p) ∈ dlex := (hinv.swap (p, c)).mp hmem
  have hc_dkey : c ∈ dlex.map Prod.fst :=
    List.mem_map.mpr ⟨(c, p), hdmem, rfl⟩
  have hDkeys : ∀ k', k' ∈ (dpop clex p).map Prod.fst ↔
      k' ∈ clex.map Prod.fst ∧ k' ≠ p := by
    intro k'
    constructor
    · intro hk'
      obtain ⟨x, hx, rfl⟩ := List.mem_map.mp hk'
      obtain ⟨hxc, hxp⟩ := (mem_dpop hinv.hkc).mp hx
      exact ⟨List.mem_map.mpr ⟨x, hxc, rfl⟩, hxp⟩
    · rintro ⟨hk', hne⟩
      obtain ⟨x, hx, rfl⟩ := List.mem_map.mp hk'
      exact List.mem_map.mpr ⟨x, (mem_dpop hinv.hkc).mpr ⟨hx, hne⟩, rfl⟩
  have hf0 := inv_key_extension_fresh hinv hp_key false
  have hf1 := inv_key_extension_fresh hinv hp_key true
  have hf0D : p ++ [false] ∉ (dpop clex p).map Prod.fst := by
    intro h
    exact hf0 ((hDkeys _).mp h).1
  have hE2 : dinsert (dpop clex p) (p ++ [false]) c =
      dpop clex p ++ [(p ++ [false], c)] := dinsert_fresh c hf0D
  have hne01 : p ++ [false] ≠ p ++ [true] := by simp
  have hkeys3 : ((if isPow2 index then
      (dpop clex p ++ [(p ++ [false], c)]).map (fun e => (e.1, false :: e.2))
      else dpop clex p ++ [(p ++ [false], c)]).map Prod.fst) =
      (dpop clex p).map Prod.fst ++ [p ++ [false]] := by
    split_ifs
    · rw [map_fst_widenV, List.map_append]
      rfl
    · rw [List.map_append]
      rfl
  have hf1' : p ++ [true] ∉ ((if isPow2 index then
      (dpop clex p ++ [(p ++ [false], c)]).map (fun e => (e.1, false :: e.2))
      else dpop clex p ++ [(p ++ [false], c)]).map Prod.fst) := by
    rw [hkeys3, List.mem_append, List.mem_singleton]
    rintro (h | h)
    · exact hf1 ((hDkeys _).mp h).1
    · exact hne01 h.symm
  have hckeq : add_key_to_lexicon clex p index c =
      (if isPow2 index then
        (dpop clex p ++ [(p ++ [false], c)]).map (fun e => (e.1, false :: e.2))
        else dpop clex p ++ [(p ++ [false], c)]) ++
      [(p ++ [true], natBits index)] := by
    simp only [add_key_to_lexicon]
    rw [hE2]
    exact dinsert_fresh _ hf1'
  have hdkeysR : (dinsert dlex c (p ++ [false])).map Prod.fst =
      dlex.map Prod.fst := keys_dinsert_replace hc_dkey _
  have hkeys3d : ((if isPow2 index then
      (dinsert dlex c (p ++ [false])).map (fun e => (false :: e.1, e.2))
      else dinsert dlex c (p ++ [false])).map Prod.fst) =
      (if isPow2 index then (dlex.map Prod.fst).map (fun k => false :: k)
        else dlex.map Prod.fst) := by
    split_ifs
    · rw [map_fst_widenK, hdkeysR]
    · exact hdkeysR
  have hnb_head := natBits_head index (by have := hinv.hidx; omega)
  have hfreshd0 : natBits index ∉
      (if isPow2 index then (dlex.map Prod.fst).map (fun k => false :: k)
        else dlex.map Prod.fst) := by
    split_ifs
    · intro h
      obtain ⟨k, _, hke⟩ := List.mem_map.mp h
      obtain ⟨tl, htl⟩ := hnb_head
      rw [htl] at hke
      exact Bool.noConfusion (List.head_eq_of_cons_eq hke)
    · intro h
      exact inv_natBits_fresh hinv ((inv_dlex_keys_iff hinv _).mp h)
  have hfreshd : natBits index ∉ ((if isPow2 index then
      (dinsert dlex c (p ++ [false])).map (fun e => (false :: e.1, e.2))
      else dinsert dlex c (p ++ [false])).map Prod.fst) := by
    rw [hkeys3d]
    exact hfreshd0
  have hdkeq : decompress_update dlex c index p =
      (if isPow2 index then
        (dinsert dlex c (p ++ [false])).map (fun e => (false :: e.1, e.2))
        else dinsert dlex c (p ++ [false])) ++
      [(natBits index, p ++ [true])] := by
    simp only [decompress_update]
    exact dinsert_fresh _ hfreshd
  -- the middle-layer swap correspondence
  have hmid : ∀ y : List Bool × List Bool,
      y ∈ dpop clex p ++ [(p ++ [false], c)] ↔
        (y.2, y.1) ∈ dinsert dlex c (p ++ [false]) := by
    intro y
    rw [List.mem_append, List.mem_singleton,
      mem_dinsert_replace hinv.hkd hdmem (p ++ [false]) (y.2, y.1),
      mem_dpop hinv.hkc]
    have hkey_iff : y ∈ clex → (y.1 ≠ p ↔ y.2 ≠ c) := by
      intro hy
      constructor
      · intro h1 h2
        apply h1
        have hyp : y = (p, c) := List.inj_on_of_nodup_map
          (inv_values_nodup hinv) hy hmem (by rw [h2])
        rw [hyp]
      · intro h2 h1
        apply h2
        have hyp : y = (p, c) := List.inj_on_of_nodup_map
          hinv.hkc hy hmem (by rw [h1])
        rw [hyp]
    constructor
    · rintro (⟨hy, h1⟩ | hy)
      · exact Or.inl ⟨(hinv.swap y).mp hy, (hkey_iff hy).mp h1⟩
      · refine Or.inr ?_
        rw [hy]
    · rintro (⟨hy, h2⟩ | hy)
      · have hyc := (hinv.swap y).mpr hy
        exact Or.inl ⟨hyc, (hkey_iff hyc).mpr h2⟩
      · refine Or.inr ?_
        have h1 : y.2 = c := congrArg Prod.fst hy
        have h2 : y.1 = p ++ [false] := congrArg Prod.snd hy
        exact Prod.ext h2 h1
  have hswap' : ∀ x : List Bool × List Bool,
      x ∈ add_key_to_lexicon clex p index c ↔
        (x.2, x.1) ∈ decompress_update dlex c index p := by
    intro x
    rw [hckeq, hdkeq]
    by_cases hpw : isPow2 index
    · rw [if_pos hpw, if_pos hpw]
      exact swap_iff_append (swap_iff_map hmid) _ _ x
    · rw [if_neg hpw, if_neg hpw]
      exact swap_iff_append hmid _ _ x
  -- keys of the new encoder lexicon
  have hckeys' : (add_key_to_lexicon clex p index c).map Prod.fst =
      ((dpop clex p).map Prod.fst ++ [p ++ [false]]) ++ [p ++ [true]] := by
    rw [hckeq, List.map_append, hkeys3]
    rfl
  have hDnd : ((dpop clex p).map Prod.fst).Nodup :=
    List.Pairwise.sublist ((dpop_sublist clex p).map Prod.fst) hinv.hkc
  have hkc' : ((add_key_to_lexicon clex p index c).map Prod.fst).Nodup := by
    rw [hckeys']
    refine List.Nodup.append (List.Nodup.append hDnd
      (List.nodup_singleton _) ?_) (List.nodup_singleton _) ?_
    · intro a ha hb
      rw [List.mem_singleton] at hb
      subst hb
      exact hf0D ha
    · intro a ha hb
      rw [List.mem_singleton] at hb
      subst hb
      rw [List.mem_append, List.mem_singleton] at ha
      rcases ha with ha | ha
      · exact hf1 ((hDkeys _).mp ha).1
      · exact hne01 ha.symm
  have hdkeys' : (decompress_update dlex c index p).map Prod.fst =
      (if isPow2 index then (dlex.map Prod.fst).map (fun k => false :: k)
        else dlex.map Prod.fst) ++ [natBits index] := by
    rw [hdkeq, List.map_append, hkeys3d]
    rfl
  have hkd' : ((decompress_update dlex c index p).map Prod.fst).Nodup := by
    rw [hdkeys']
    refine List.Nodup.append ?_ (List.nodup_singleton _) ?_
    · split_ifs
      · exact hinv.hkd.map (fun a b hab => List.tail_eq_of_cons_eq hab)
      · exact hinv.hkd
    · intro a ha hb
      rw [List.mem_singleton] at hb
      subst hb
      exact hfreshd0 ha
  -- value multiset
  have hPerm1 : ((dpop clex p).map Prod.snd ++ [c]).Perm
      (clex.map Prod.snd) := by
    refine (List.perm_append_singleton _ _).trans ?_
    exact ((dpop_perm hinv.hkc hmem).map Prod.snd).symm
  have hPerm2 : ((dpop clex p).map Prod.snd ++ [c]).Perm
      ((List.range index).map (padWidth (natBits (index - 1)).length)) :=
    hPerm1.trans hinv.dense
  have hvals' : (add_key_to_lexicon clex p index c).map Prod.snd =
      (if isPow2 index then
        ((dpop clex p).map Prod.snd ++ [c]).map (fun v => false :: v)
        else (dpop clex p).map Prod.snd ++ [c]) ++ [natBits index] := by
    rw [hckeq, List.map_append]
    congr 1
    split_ifs
    · rw [map_snd_widenV, List.map_append]
      rfl
    · rw [List.map_append]
      rfl
  have hdense' : ((add_key_to_lexicon clex p index c).map Prod.snd).Perm
      ((List.range (index + 1)).map
        (padWidth (natBits ((index + 1) - 1)).length)) := by
    rw [hvals']
    rw [show (index + 1) - 1 = index from rfl]
    have hw' := natBits_length_succ_eq index hinv.hidx
    by_cases hpw : isPow2 index
    · rw [if_pos hpw]
      have hw1 : (natBits index).length =
          (natBits (index - 1)).length + 1 := by
        rw [hw', if_pos hpw]
      have hcast : (((List.range index).map
          (padWidth (natBits (index - 1)).length)).map
            (fun v => false :: v)) =
          (List.range index).map
            (padWidth ((natBits (index - 1)).length + 1)) := by
        rw [List.map_map]
        refine List.map_congr_left (fun j hj => ?_)
        exact cons_false_padWidth (natBits_le_of_lt (List.mem_range.mp hj))
      have hnb : natBits index =
          padWidth ((natBits (index - 1)).length + 1) index :=
        (padWidth_eq_natBits hw1).symm
      have hsplit : (List.range (index + 1)).map
          (padWidth ((natBits (index - 1)).length + 1)) =
          (List.range index).map
            (padWidth ((natBits (index - 1)).length + 1)) ++
          [padWidth ((natBits (index - 1)).length + 1) index] := by
        rw [List.range_succ, List.map_append]
        rfl
      rw [hw1, hnb, hsplit]
      refine List.Perm.append_right _ ?_
      refine (List.Perm.map _ hPerm2).trans ?_
      rw [hcast]
    · rw [if_neg hpw]
      have hw0 : (natBits index).length = (natBits (index - 1)).length := by
        rw [hw', if_neg hpw]
        rfl
      have hnb : natBits index =
          padWidth (natBits (index - 1)).length index :=
        (padWidth_eq_natBits hw0).symm
      have hsplit : (List.range (index + 1)).map
          (padWidth (natBits (index - 1)).length) =
          (List.range index).map (padWidth (natBits (index - 1)).length) ++
          [padWidth (natBits (index - 1)).length index] := by
        rw [List.range_succ, List.map_append]
        rfl
      rw [hw0, hnb, hsplit]
      exact List.Perm.append_right _ hPerm2
  -- nonempty keys
  have hkne' : ∀ x ∈ add_key_to_lexicon clex p index c, x.1 ≠ [] := by
    intro x hx
    have hxk : x.1 ∈ (add_key_to_lexicon clex p index c).map Prod.fst :=
      List.mem_map.mpr ⟨x, hx, rfl⟩
    rw [hckeys'] at hxk
    simp only [List.mem_append, List.mem_singleton] at hxk
    rcases hxk with (h | h) | h
    · obtain ⟨y, hy, hye⟩ := List.mem_map.mp ((hDkeys _).mp h).1
      rw [← hye]
      exact hinv.knonempty y hy
    · rw [h]
      simp
    · rw [h]
      simp
  -- prefix-freeness
  have hcross : ∀ k', k' ∈ (dpop clex p).map Prod.fst → ∀ b : Bool,
      ¬ k' <+: p ++ [b] ∧ ¬ (p ++ [b]) <+: k' := by
    intro k' hk' b
    obtain ⟨hk'c, hk'p⟩ := (hDkeys k').mp hk'
    have hR := List.Pairwise.forall not_prefix_symm hinv.pf hk'c hp_key hk'p
    constructor
    · intro hpre
      rcases List.prefix_concat_iff.mp hpre with h | h
      · exact inv_key_extension_fresh hinv hp_key b (h ▸ hk'c)
      · exact hR.1 h
    · intro hpre
      exact hR.2 ((List.prefix_append p [b]).trans hpre)
  have hpf' : List.Pairwise (fun k₁ k₂ => ¬ k₁ <+: k₂ ∧ ¬ k₂ <+: k₁)
      ((add_key_to_lexicon clex p index c).map Prod.fst) := by
    rw [hckeys']
    have hDpf := List.Pairwise.sublist
      ((dpop_sublist clex p).map Prod.fst) hinv.pf
    rw [List.pairwise_append, List.pairwise_append]
    refine ⟨⟨hDpf, List.pairwise_singleton _ _, ?_⟩,
      List.pairwise_singleton _ _, ?_⟩
    · intro a ha b hb
      rw [List.mem_singleton] at hb
      subst hb
      exact hcross a ha false
    · intro a ha b hb
      rw [List.mem_singleton] at hb
      subst hb
      rw [List.mem_append, List.mem_singleton] at ha
      rcases ha with ha | ha
      · exact hcross a ha true
      · subst ha
        constructor
        · intro hpre
          have hq := (List.prefix_append_right_inj p).mp hpre
          rw [List.cons_prefix_cons] at hq
          exact Bool.noConfusion hq.1
        · intro hpre
          have hq := (List.prefix_append_right_inj p).mp hpre
          rw [List.cons_prefix_cons] at hq
          exact Bool.noConfusion hq.1
  -- completeness
  have hmemkeys' : ∀ k', k' ∈ (add_key_to_lexicon clex p index c).map
      Prod.fst ↔ (k' ∈ (dpop clex p).map Prod.fst ∨
        k' = p ++ [false] ∨ k' = p ++ [true]) := by
    intro k'
    rw [hckeys']
    simp only [List.mem_append, List.mem_singleton]
    tauto
  have hcomp' : ∀ l : List Bool,
      (∃ k ∈ (add_key_to_lexicon clex p index c).map Prod.fst, k <+: l) ∨
      (∃ k ∈ (add_key_to_lexicon clex p index c).map Prod.fst,
        l <+: k ∧ l ≠ k) := by
    intro l
    rcases hinv.comp l with ⟨k, hk, hkl⟩ | ⟨k, hk, hlk, hlne⟩
    · by_cases hkp : k = p
      · subst hkp
        obtain ⟨r, rfl⟩ := hkl
        cases r with
        | nil =>
          refine Or.inr ⟨k ++ [false],
            (hmemkeys' _).mpr (Or.inr (Or.inl rfl)), ?_, ?_⟩
          · rw [List.append_nil]
            exact List.prefix_append k [false]
          · rw [List.append_nil]
            simp
        | cons b r =>
          refine Or.inl ⟨k ++ [b], (hmemkeys' _).mpr (by
            cases b
            · exact Or.inr (Or.inl rfl)
            · exact Or.inr (Or.inr rfl)), ?_⟩
          rw [List.prefix_append_right_inj]
          exact (List.cons_prefix_cons).mpr ⟨rfl, List.nil_prefix⟩
      · exact Or.inl ⟨k,
          (hmemkeys' k).mpr (Or.inl ((hDkeys k).mpr ⟨hk, hkp⟩)), hkl⟩
    · by_cases hkp : k = p
      · subst hkp
        have hlt : l.length < k.length := by
          rcases Nat.lt_or_ge l.length k.length with h | h
          · exact h
          · exact absurd (hlk.eq_of_length
              (le_antisymm hlk.length_le h)) hlne
        refine Or.inr ⟨k ++ [false],
          (hmemkeys' _).mpr (Or.inr (Or.inl rfl)),
          hlk.trans (List.prefix_append k [false]), ?_⟩
        intro heq
        rw [heq] at hlt
        simp only [List.length_append, List.length_cons,
          List.length_nil] at hlt
        omega
      · exact Or.inr ⟨k,
          (hmemkeys' k).mpr (Or.inl ((hDkeys k).mpr ⟨hk, hkp⟩)),
          hlk, hlne⟩
  exact ⟨hkc', hkd', hswap', hdense', hkne', hpf', hcomp',
    by have := hinv.hidx; omega⟩

/-! ## The initial invariant and the main simulation -/

theorem lzw_inv_init : LZWInv initLex initLex 2 := by
  refine ⟨by decide, by decide, ?_, by decide, by decide, by decide, ?_,
    le_refl 2⟩
  · intro p
    simp only [initLex, List.mem_cons, List.mem_singleton,
      List.not_mem_nil, or_false]
    constructor
    · rintro (rfl | rfl) <;> simp
    · rintro (h | h) <;>
        [exact Or.inl (Prod.ext (congrArg Prod.snd h) (congrArg Prod.fst h));
         exact Or.inr (Prod.ext (congrArg Prod.snd h) (congrArg Prod.fst h))]
  · intro l
    cases l with
    | nil =>
      refine Or.inr ⟨[false], by decide, ?_, by decide⟩
      exact List.nil_prefix
    | cons b t =>
      refine Or.inl ⟨[b], ?_, ?_⟩
      · cases b <;> decide
      · exact (List.cons_prefix_cons).mpr ⟨rfl, List.nil_prefix⟩

theorem inv_dlex_strict_prefix_none {clex dlex : List (List Bool × List Bool)}
    {index : Nat} (hinv : LZWInv clex dlex index) {c : List Bool}
    (hcw : c.length = (natBits (index - 1)).length) :
    ∀ v', v' ≠ [] → v' <+: c → v' ≠ c → alookup dlex v' = none := by
  intro v' h1 h2 h3
  rw [alookup_eq_none]
  intro hvk
  have hlenv : v'.length = (natBits (index - 1)).length :=
    inv_value_length hinv ((inv_dlex_keys_iff hinv v').mp hvk)
  exact h3 (h2.eq_of_length (by rw [hlenv, hcw]))

theorem lzw_sim : ∀ (n : Nat) (u : List Bool)
    (clex dlex : List (List Bool × List Bool)) (index : Nat)
    (res dres : List Bool), u.length ≤ n → LZWInv clex dlex index →
    ∃ (out v c₁ : List Bool) (clex₁ dlex₁ : List (List Bool × List Bool))
      (index₁ : Nat),
      u.foldl compress_step ⟨clex, index, [], res⟩ =
        ⟨clex₁, index₁, c₁, res ++ out⟩ ∧
      out.foldl decompress_step ⟨dlex, index, [], dres⟩ =
        ⟨dlex₁, index₁, [], dres ++ v⟩ ∧
      u = v ++ c₁ ∧
      (∀ q, q ≠ [] → q <+: c₁ → alookup clex₁ q = none) ∧
      LZWInv clex₁ dlex₁ index₁ := by
  intro n
  induction n with
  | zero =>
    intro u clex dlex index res dres hlen hinv
    have hu : u = [] := List.length_eq_zero.mp (by omega)
    subst hu
    refine ⟨[], [], [], clex, dlex, index, by simp, by simp, rfl, ?_, hinv⟩
    intro q hq hpre
    exact absurd (List.prefix_nil.mp hpre) hq
  | succ n ih =>
    intro u clex dlex index res dres hlen hinv
    by_cases hex : ∃ p, p ∈ clex.map Prod.fst ∧ p <+: u
    · obtain ⟨p, hpk, hpu⟩ := hex
      have hpne : p ≠ [] := by
        obtain ⟨x, hx, rfl⟩ := List.mem_map.mp hpk
        exact hinv.knonempty x hx
      obtain ⟨rest, rfl⟩ := hpu
      obtain ⟨c, hc⟩ := alookup_mem_keys hpk
      have hpc : (p, c) ∈ clex := mem_of_alookup hc
      have hpre : ∀ v', v' ≠ [] → v' <+: p → v' ≠ p →
          alookup clex v' = none := by
        intro v' hv1 hv2 hv3
        rw [alookup_eq_none]
        intro hvk
        exact (List.Pairwise.forall not_prefix_symm hinv.pf
          hvk hpk hv3).1 hv2
      have hcfold := compress_scan_match p rest clex index res c hpne hc hpre
      have hdc : alookup dlex c = some p :=
        alookup_of_mem hinv.hkd ((hinv.swap (p, c)).mp hpc)
      have hcw : c.length = (natBits (index - 1)).length :=
        inv_value_length hinv (List.mem_map.mpr ⟨(p, c), hpc, rfl⟩)
      have hcne : c ≠ [] := by
        intro h
        rw [h] at hcw
        have hw1 := natBits_length_pos (index - 1)
        simp only [List.length_nil] at hcw
        omega
      have hinv' := lzw_step hinv hpc
      have hrest : rest.length ≤ n := by
        simp only [List.length_append] at hlen
        have hp1 : 1 ≤ p.length := List.length_pos.mpr hpne
        omega
      obtain ⟨out', v', c₁, clex₁, dlex₁, index₁, hc1, hd1, hu1, hnone1,
        hinv₁⟩ := ih rest (add_key_to_lexicon clex p index c)
          (decompress_update dlex c index p) (index + 1) (res ++ c)
          (dres ++ p) hrest hinv'
      refine ⟨c ++ out', p ++ v', c₁, clex₁, dlex₁, index₁, ?_, ?_, ?_,
        hnone1, hinv₁⟩
      · rw [hcfold, hc1, List.append_assoc]
      · rw [decompress_scan_match c out' dlex index dres p hcne hdc
          (inv_dlex_strict_prefix_none hinv hcw), hd1, List.append_assoc]
      · rw [hu1, List.append_assoc]
    · push_neg at hex
      have hnone : ∀ v', v' ≠ [] → v' <+: u →
          alookup clex ([] ++ v') = none := by
        intro v' hv1 hv2
        rw [List.nil_append, alookup_eq_none]
        intro hvk
        exact hex v' hvk hv2
      refine ⟨[], [], u, clex, dlex, index, ?_, by simp, rfl, ?_, hinv⟩
      · have hcall := compress_scan_nomatch u clex index res [] hnone
        simpa using hcall
      · intro q hq hpre
        rw [alookup_eq_none]
        intro hqk
        exact hex q hqk hpre

/-! ## Adequacy of the final padding loop -/

theorem padLoop_spec {clex dlex : List (List Bool × List Bool)}
    {index : Nat} (hinv : LZWInv clex dlex index) :
    ∀ (fuel : Nat) (cur : List Bool), cur ≠ [] →
      maxKeyLen clex + 1 ≤ fuel + cur.length →
      (∀ q, q ≠ [] → q <+: cur → q ≠ cur → alookup clex q = none) →
      ∃ j k, padLoop clex fuel cur = some k ∧
        k = cur ++ List.replicate j false ∧ k ∈ clex.map Prod.fst := by
  intro fuel
  induction fuel with
  | zero =>
    intro cur hne hfuel hpre
    exfalso
    rcases hinv.comp cur with ⟨k, hk, hkc⟩ | ⟨k, hk, hck, hne2⟩
    · have hkne : k ≠ [] := by
        obtain ⟨x, hx, rfl⟩ := List.mem_map.mp hk
        exact hinv.knonempty x hx
      by_cases hkeq : k = cur
      · subst hkeq
        have hlk := length_le_maxKeyLen clex k hk
        omega
      · exact (alookup_eq_none.mp (hpre k hkne hkc hkeq)) hk
    · have hlk := length_le_maxKeyLen clex k hk
      have hlt : cur.length < k.length := by
        rcases Nat.lt_or_ge cur.length k.length with h | h
        · exact h
        · exact absurd (hck.eq_of_length
            (le_antisymm hck.length_le h)) hne2
      omega
  | succ fuel ihf =>
    intro cur hne hfuel hpre
    by_cases hcur : alookup clex cur = none
    · have hstep : padLoop clex (fuel + 1) cur =
          padLoop clex fuel (cur ++ [false]) := by
        simp only [padLoop, if_neg hne, hcur]
      have hpre' : ∀ q, q ≠ [] → q <+: cur ++ [false] →
          q ≠ cur ++ [false] → alookup clex q = none := by
        intro q h1 h2 h3
        rcases List.prefix_concat_iff.mp h2 with h | h
        · exact absurd h h3
        · by_cases hq : q = cur
          · rw [hq]; exact hcur
          · exact hpre q h1 h hq
      obtain ⟨j, k, hpad, hke, hkk⟩ := ihf (cur ++ [false]) (by simp)
        (by simp only [List.length_append, List.length_cons,
          List.length_nil]; omega) hpre'
      refine ⟨j + 1, k, by rw [hstep]; exact hpad, ?_, hkk⟩
      rw [hke, List.append_assoc, List.replicate_succ]
      rfl
    · obtain ⟨cv, hcv⟩ := Option.ne_none_iff_exists'.mp hcur
      refine ⟨0, cur, ?_, by simp, ?_⟩
      · simp only [padLoop, if_neg hne, hcv]
      · by_contra h
        exact hcur (alookup_eq_none.mpr h)

/-! ## The whole-pipeline round trip -/

theorem lzw_roundtrip_core (b : List Bool) :
    ∃ out j, compress_data b = some out ∧
      decompress_data out = b ++ List.replicate j false := by
  obtain ⟨out, v, c₁, clex₁, dlex₁, index₁, hcf, hdf, hu, hnone, hinv₁⟩ :=
    lzw_sim b.length b initLex initLex 2 [] [] le_rfl lzw_inv_init
  by_cases hc1 : c₁ = []
  · subst hc1
    refine ⟨out, 0, ?_, ?_⟩
    · have hpadnil : padLoop clex₁ (maxKeyLen clex₁ + 1) [] = some [] := by
        simp [padLoop]
      simp only [compress_data]
      rw [hcf]
      dsimp only
      rw [hpadnil]
      simp
    · rw [List.append_nil] at hu
      unfold decompress_data
      rw [hdf]
      dsimp only
      rw [List.nil_append, List.replicate_zero, List.append_nil]
      exact hu.symm
  · obtain ⟨j, k, hpad, hke, hkk⟩ := padLoop_spec hinv₁
      (maxKeyLen clex₁ + 1) c₁ hc1 (by omega)
      (fun q h1 h2 _ => hnone q h1 h2)
    obtain ⟨code, hcode⟩ := alookup_mem_keys hkk
    have hkmem : (k, code) ∈ clex₁ := mem_of_alookup hcode
    have hcodew : code.length = (natBits (index₁ - 1)).length :=
      inv_value_length hinv₁ (List.mem_map.mpr ⟨(k, code), hkmem, rfl⟩)
    have hcodene : code ≠ [] := by
      intro h
      rw [h] at hcodew
      have hw1 := natBits_length_pos (index₁ - 1)
      simp only [List.length_nil] at hcodew
      omega
    obtain ⟨x, k', hk'⟩ := @List.exists_cons_of_ne_nil Bool k (by
      rw [hke]
      intro h
      exact hc1 (List.append_eq_nil.mp h).1)
    have hpad' : padLoop clex₁ (maxKeyLen clex₁ + 1) c₁ =
        some (x :: k') := by rw [hpad, hk']
    have hdcode : alookup dlex₁ code = some k :=
      alookup_of_mem hinv₁.hkd ((hinv₁.swap (k, code)).mp hkmem)
    refine ⟨out ++ code, j, ?_, ?_⟩
    · simp only [compress_data]
      rw [hcf]
      dsimp only
      rw [hpad']
      dsimp only
      rw [← hk', hcode, Option.map_some']
      rw [List.nil_append]
    · have hdrun := decompress_scan_match code [] dlex₁ index₁ ([] ++ v) k
        hcodene hdcode (inv_dlex_strict_prefix_none hinv₁ hcodew)
      rw [List.append_nil] at hdrun
      unfold decompress_data
      rw [List.foldl_append, hdf, hdrun]
      dsimp only [List.foldl_nil]
      rw [List.nil_append, hke, hu, List.append_assoc]

/-- C1: the claimed exact LZW round trip
`decompress_data (compress_data b) = b` fails: for the bit string `"11"`,
`compress_data` yields `"101"` and `decompress_data "101"` is `"110"`,
which carries a trailing padding `0` bit and differs from `"11"`. -/
theorem C1_counterexample :
    compress_data [true, true] = some [true, false, true] ∧
    decompress_data [true, false, true] ≠ [true, true] := by
  decide

/-- C1 (amended): for every non-empty bit string `b`, `compress_data`
succeeds and `decompress_data` recovers `b` followed by finitely many
`0` bits — the zero padding `compress_data` appends to flush its final
partial candidate — rather than `b` exactly. -/
theorem C1_lzw_roundtrip (b : List Bool) (_hb : b ≠ []) :
    ∃ out j, compress_data b = some out ∧
      decompress_data out = b ++ List.replicate j false :=
  lzw_roundtrip_core b

theorem C1_lzw_roundtrip_witness :
    ([true, true] : List Bool) ≠ [] ∧
      ∃ out j, compress_data [true, true] = some out ∧
        decompress_data out = [true, true] ++ List.replicate j false :=
  ⟨by decide, C1_lzw_roundtrip [true, true] (by decide)⟩

/-- C10: for every non-empty bit string `b`, `compress_data b` succeeds,
`b` is a prefix of `decompress_data (compress_data b)`, and every bit of
the remaining suffix is `0` (the end-of-input candidate padding). -/
theorem C10_lzw_prefix_zeros (b : List Bool) (_hb : b ≠ []) :
    ∃ out, compress_data b = some out ∧ b <+: decompress_data out ∧
      ∀ x ∈ (decompress_data out).drop b.length, x = false := by
  obtain ⟨out, j, hc, hd⟩ := lzw_roundtrip_core b
  refine ⟨out, hc, ⟨List.replicate j false, hd.symm⟩, ?_⟩
  intro x hx
  rw [hd, List.drop_left] at hx
  exact List.eq_of_mem_replicate hx

theorem C10_lzw_prefix_zeros_witness :
    ([true, true] : List Bool) ≠ [] ∧
      ∃ out, compress_data [true, true] = some out ∧
        [true, true] <+: decompress_data out ∧
        ∀ x ∈ (decompress_data out).drop 2, x = false :=
  ⟨by decide, C10_lzw_prefix_zeros [true, true] (by decide)⟩

end AlgoPy
